/-
Verification development for the Ion binary writer core
(binarywriter.go and the symbol table module) together with the
bit-level codec primitives and writer plumbing described in the
design document.

Conventions used throughout:
* Go machine integers are modelled as Nat/Int with explicit wrapping
  where overflow matters (see wrap64 / int64ToUInt64).
* Go byte slices are List Nat (each entry < 256 by construction).
* Go maps from string to int are modelled as association lists with
  first-match lookup; map assignment appends a fresh key (all call
  sites only insert keys that are absent).
* Functions whose Go source is not part of the provided sources are
  marked "Modelled from the spec:" in their doc comment and follow the
  design document's description.
* Recursive byte-peeling loops use an explicit fuel argument that is
  always at least the number of base-b digits of the input, so that
  every definition is structurally recursive and evaluates by rfl.
-/
import Mathlib

namespace IonGo

/-- Fuel-indexed big-endian base-256 digit peeling: `beF f n` is the minimal
big-endian byte string of `n` provided `f` is at least the digit count of `n`.
Zero yields no bytes. -/
def beF : Nat → Nat → List Nat
  | 0, _ => []
  | f+1, n => if n = 0 then [] else beF f (n / 256) ++ [n % 256]

/-- Modelled from the spec: minimal big-endian bytes of an unsigned value;
zero encodes as zero bytes. Fuel `n + 64` always dominates the digit count. -/
def beBytes (n : Nat) : List Nat := beF (n + 64) n

/-- Modelled from the spec: `AppendUInt` appends the minimal big-endian
bytes (0 contributes no bytes). -/
def appendUint (buf : List Nat) (n : Nat) : List Nat := buf ++ beBytes n

/-- Modelled from the spec: `UIntLen` is the number of bytes `AppendUInt` emits. -/
def uintLen (n : Nat) : Nat := (beBytes n).length

/-- The numeric value of a big-endian base-256 byte string (specification-side
decoder used to state minimality/correctness of the encoders). -/
def beVal (l : List Nat) : Nat := l.foldl (fun acc b => 256 * acc + b) 0

/-- Fuel-indexed high (non-terminal) base-128 digits of a VarUInt. -/
def vuHighF : Nat → Nat → List Nat
  | 0, _ => []
  | f+1, n => if n = 0 then [] else vuHighF f (n / 128) ++ [n % 128]

/-- Modelled from the spec: VarUInt bytes — base-128 big-endian, the last
byte carries the terminator bit 0x80; minimum one byte, even for zero. -/
def vuBytes (n : Nat) : List Nat := vuHighF (n + 16) (n / 128) ++ [n % 128 + 0x80]

/-- Modelled from the spec: `AppendVarUInt`. -/
def appendVarUint (buf : List Nat) (n : Nat) : List Nat := buf ++ vuBytes n

/-- Modelled from the spec: `VarUIntLen`. -/
def varUintLen (n : Nat) : Nat := (vuBytes n).length

/-- Fuel-indexed VarInt digit peeling: base-128 digits whose leading digit
fits in six bits (the first byte reserves bit 6 for the sign). -/
def viDigitsF : Nat → Nat → List Nat
  | 0, _ => []
  | f+1, n => if n < 64 then [n] else viDigitsF f (n / 128) ++ [n % 128]

/-- VarInt digit list of a magnitude. -/
def viDigits (n : Nat) : List Nat := viDigitsF (n + 16) n

/-- Set the terminator bit 0x80 on the final byte of a digit list. -/
def markEnd (l : List Nat) : List Nat := l.dropLast ++ [l.getLastD 0 + 0x80]

/-- Modelled from the spec: VarInt bytes — like VarUInt but the first byte
reserves bit 6 (0x40) for the sign; magnitude uses the remaining bits. -/
def varIntBytes (v : Int) : List Nat :=
  let ds := viDigits v.natAbs
  let ds := if v < 0 then (ds.headD 0 + 0x40) :: ds.tail else ds
  markEnd ds

/-- Modelled from the spec: `AppendVarInt`. -/
def appendVarInt (buf : List Nat) (v : Int) : List Nat := buf ++ varIntBytes v

/-- Modelled from the spec: `VarIntLen`. -/
def varIntLen (v : Int) : Nat := (viDigits v.natAbs).length

/-- Modelled from the spec: `AppendBigInt` — sign-magnitude; minimal
big-endian magnitude bytes, a leading 0x00 pad when the top magnitude bit
would collide with the sign bit, the sign carried in bit 7 of the first
byte; zero contributes zero bytes. -/
def appendBigInt (buf : List Nat) (v : Int) : List Nat :=
  if v = 0 then buf
  else
    let m := beBytes v.natAbs
    let m := if 0x80 ≤ m.headD 0 then 0 :: m else m
    let m := if v < 0 then (m.headD 0 + 0x80) :: m.tail else m
    buf ++ m

/-- Modelled from the spec: `BigIntLen` is the number of bytes `AppendBigInt`
emits. -/
def bigIntLen (v : Int) : Nat := (appendBigInt [] v).length

/-- Modelled from the spec: `TagLen` — 1 if the length fits the low nibble,
otherwise 1 plus the VarUInt length of the length. -/
def tagLen (len : Nat) : Nat := if len < 14 then 1 else 1 + varUintLen len

/-- Modelled from the spec: `AppendTag` — a single byte `code | L` when
`L < 14`, else `code | 0x0E` followed by the length as a VarUInt. -/
def appendTag (buf : List Nat) (code : Nat) (len : Nat) : List Nat :=
  if len < 14 then buf ++ [code + len] else buf ++ [code + 0x0E] ++ vuBytes len

/-- Two's-complement wrap of an integer into the int64 range. -/
def wrap64 (x : Int) : Int := (x + 2 ^ 63) % 2 ^ 64 - 2 ^ 63

/-- Go's `uint64(v)` conversion of an int64 value (two's complement bits). -/
def int64ToUInt64 (v : Int) : Nat := (v % 2 ^ 64).toNat

/-- First-match association list lookup, the model of Go map indexing. -/
def lookupA (l : List (String × Int)) (k : String) : Option Int :=
  match l with
  | [] => none
  | (k', v) :: rest => if k' = k then some v else lookupA rest k

/-- Go map assignment; every call site inserts a key that is absent. -/
def insertA (l : List (String × Int)) (k : String) (v : Int) : List (String × Int) :=
  l ++ [(k, v)]

/-- A SharedSymbolTable (name, version, de-duplicated symbols, inverse index). -/
structure SharedSymbolTable where
  name : String
  version : Int
  symbols : List String
  index : List (String × Int)
deriving DecidableEq

/-- `buildIndex` interior loop: walk the symbols, skipping entries already
indexed, appending new ones and recording `offset + len(copy)` (1-based
position after the append) in the index. -/
def buildIndexGo : List String → Int → List (String × Int) → List String →
    List (String × Int) × List String
  | [], _, idx, cp => (idx, cp)
  | sym :: rest, off, idx, cp =>
    match lookupA idx sym with
    | some _ => buildIndexGo rest off idx cp
    | none => buildIndexGo rest off (insertA idx sym (off + (cp.length + 1 : Nat))) (cp ++ [sym])

/-- `buildIndex(symbols, offset)` from the source: returns the index and the
de-duplicated copy of the symbol list. -/
def buildIndex (symbols : List String) (offset : Int) : List (String × Int) × List String :=
  buildIndexGo symbols offset [] []

/-- `NewSharedSymbolTable` (the Go function also panics on an empty name or a
version below one; those guards touch no field used here). -/
def NewSharedSymbolTable (name : String) (version : Int) (symbols : List String) :
    SharedSymbolTable :=
  let p := buildIndex symbols 0
  { name := name, version := version, symbols := p.2, index := p.1 }

def SharedSymbolTable.MaxID (s : SharedSymbolTable) : Int := s.symbols.length

def SharedSymbolTable.FindByName (s : SharedSymbolTable) (sym : String) : Int × Bool :=
  match lookupA s.index sym with
  | some id => (id, true)
  | none => (0, false)

def SharedSymbolTable.FindByID (s : SharedSymbolTable) (id : Int) : String × Bool :=
  if id ≤ 0 ∨ (s.symbols.length : Int) < id then ("", false)
  else (s.symbols.getD (id - 1).toNat "", true)

/-- The implied system symbol table for Ion v1.0. -/
def V1SystemSymbolTable : SharedSymbolTable :=
  NewSharedSymbolTable "$ion" 1
    ["$ion", "$ion_1_0", "$ion_symbol_table", "name", "version",
     "imports", "symbols", "max_id", "$ion_shared_symbol_table"]

/-- A LocalSymbolTable; `symbolTableBuilder` embeds the same fields, so the
pure builder reuses this structure. -/
structure LocalSymbolTable where
  imports : List SharedSymbolTable
  offsets : List Int
  maxImportID : Int
  symbols : List String
  index : List (String × Int)
deriving DecidableEq

/-- Running prefix sums with a starting accumulator (`offsets[i]` is the sum
of the MaxIDs of the imports before `i`). -/
def preSums : Int → List Int → List Int
  | _, [] => []
  | acc, x :: xs => acc :: preSums (acc + x) xs

/-- `processImports`: per-import offsets and the total `maxID`. -/
def processImports (imps : List SharedSymbolTable) :
    List SharedSymbolTable × List Int × Int :=
  (imps, preSums 0 (imps.map SharedSymbolTable.MaxID),
    (imps.map SharedSymbolTable.MaxID).foldl (· + ·) 0)

/-- `NewLocalSymbolTable`. -/
def NewLocalSymbolTable (imports : List SharedSymbolTable) (symbols : List String) :
    LocalSymbolTable :=
  let p := processImports imports
  let q := buildIndex symbols p.2.2
  { imports := p.1, offsets := p.2.1, maxImportID := p.2.2,
    symbols := q.2, index := q.1 }

def LocalSymbolTable.MaxID (t : LocalSymbolTable) : Int :=
  t.maxImportID + t.symbols.length

/-- The import scan of `FindByName`: walk imports in declaration order with
the parallel offset list, returning `offset[i] + localId` on the first hit. -/
def fbnAux : List SharedSymbolTable → List Int → String → Option Int
  | [], _, _ => none
  | imp :: rest, offs, s =>
    match imp.FindByName s with
    | (id, true) => some (offs.headD 0 + id)
    | (_, false) => fbnAux rest offs.tail s

def LocalSymbolTable.FindByName (t : LocalSymbolTable) (s : String) : Int × Bool :=
  match fbnAux t.imports t.offsets s with
  | some id => (id, true)
  | none =>
    match lookupA t.index s with
    | some id => (id, true)
    | none => (0, false)

/-- The scan loop of `findByIDInImports`: Go iterates `i` from 1, breaking at
the first `i` with `id ≤ offsets[i]`; `prev`/`off` hold `imports[i-1]` and
`offsets[i-1]`, the pair used after the break. -/
def fbiAux (id : Int) : SharedSymbolTable → Int → List (SharedSymbolTable × Int) →
    SharedSymbolTable × Int
  | prev, off, [] => (prev, off)
  | prev, off, (imp, o) :: rest => if id ≤ o then (prev, off) else fbiAux id imp o rest

/-- `findByIDInImports` (the Go code indexes `imports[i-1]` and would panic on
an empty import list; that call is unreachable, and the empty case here
returns the not-found pair). -/
def LocalSymbolTable.findByIDInImports (t : LocalSymbolTable) (id : Int) : String × Bool :=
  match t.imports with
  | [] => ("", false)
  | imp0 :: rest =>
    let p := fbiAux id imp0 0 (rest.zip (t.offsets.drop 1))
    SharedSymbolTable.FindByID p.1 (id - p.2)

def LocalSymbolTable.FindByID (t : LocalSymbolTable) (id : Int) : String × Bool :=
  if id ≤ 0 then ("", false)
  else if id ≤ t.maxImportID then t.findByIDInImports id
  else if id - t.maxImportID - 1 < (t.symbols.length : Int) then
    (t.symbols.getD (id - t.maxImportID - 1).toNat "", true)
  else ("", false)

/-- `NewSymbolTableBuilder` (the builder embeds a LocalSymbolTable). -/
def NewSymbolTableBuilder (imports : List SharedSymbolTable) : LocalSymbolTable :=
  let p := processImports imports
  { imports := p.1, offsets := p.2.1, maxImportID := p.2.2,
    symbols := [], index := [] }

/-- `symbolTableBuilder.Add`: returns `(id, wasNew)` together with the
updated builder (state passed explicitly). -/
def builderAdd (b : LocalSymbolTable) (symbol : String) :
    Int × Bool × LocalSymbolTable :=
  match b.FindByName symbol with
  | (id, true) => (id, false, b)
  | _ =>
    let symbols := b.symbols ++ [symbol]
    let id := b.maxImportID + (symbols.length : Nat)
    (id, true, { b with symbols := symbols, index := insertA b.index symbol id })

/-- `symbolTableBuilder.Build`: in the pure value model the snapshot is the
current field contents (the Go-level copying of the symbol slice and index
map is verified separately in the heap model below). -/
def builderBuild (b : LocalSymbolTable) : LocalSymbolTable := b

/-- The error kinds the writer returns (spec §7); values are compared
verbatim, so the two distinct symbol-not-defined messages of the source are
kept apart. -/
inductive IErr where
  | fieldNameNotSet
  | symbolNotDefined (sym : String)
  | symbolNotDefinedLST (sym : String)
  | wrongContainer
  | notAtTopLevel
  | sinkError
deriving DecidableEq

/-- Modelled from the spec: the context stack over list/sexp/struct; an empty
stack means top level. -/
inductive Ctx where
  | inList
  | inSexp
  | inStruct
deriving DecidableEq

/-- The Go `Type` enumeration. -/
inductive IonType where
  | noType | nullType | boolType | intType | floatType | decimalType
  | timestampType | symbolType | stringType | clobType | blobType
  | listType | sexpType | structType
deriving DecidableEq

/-- The `nulls` table of binarywriter.go. -/
def nulls : IonType → Nat
  | .noType => 0x0F
  | .nullType => 0x0F
  | .boolType => 0x1F
  | .intType => 0x2F
  | .floatType => 0x4F
  | .decimalType => 0x5F
  | .timestampType => 0x6F
  | .symbolType => 0x7F
  | .stringType => 0x8F
  | .clobType => 0x9F
  | .blobType => 0xAF
  | .listType => 0xBF
  | .sexpType => 0xCF
  | .structType => 0xDF

/-- Modelled from the spec: a buffered sequence on the buffer stack — either
the top-level datagram (no code) or a container with a type code. A child
that is appended is always complete and never mutated afterwards (atoms are
immutable and a container is appended only when it is popped), so children
are stored in serialized form; a container prepends its tag, with the length
computed at emission. -/
structure BufSeq where
  code : Option Nat
  content : List Nat
deriving DecidableEq

/-- The serialized bytes of a buffered sequence. -/
def BufSeq.bytes (s : BufSeq) : List Nat :=
  match s.code with
  | none => s.content
  | some c => appendTag [] c s.content.length ++ s.content

/-- A `Decimal` exposes its coefficient and exponent through `CoEx`. -/
structure Decimal where
  coef : Int
  exp : Int
deriving DecidableEq

/-- Modelled from the spec: a timestamp value reduced to the data
`AppendTime` consumes — the offset in minutes and the UTC instant fields. -/
structure GoTime where
  offsetMin : Int
  year : Nat
  month : Nat
  day : Nat
  hour : Nat
  minute : Nat
  second : Nat
  fracExp : Int
  fracCoef : Int
deriving DecidableEq

/-- Modelled from the spec: `AppendTime` — offset as VarInt minutes, then
VarUInt year, month, day, hour, minute, second, and, when the fractional
coefficient is nonzero, a VarInt exponent plus the coefficient. -/
def appendTime (buf : List Nat) (t : GoTime) : List Nat :=
  let b := appendVarInt buf t.offsetMin
  let b := appendVarUint b t.year
  let b := appendVarUint b t.month
  let b := appendVarUint b t.day
  let b := appendVarUint b t.hour
  let b := appendVarUint b t.minute
  let b := appendVarUint b t.second
  if t.fracCoef ≠ 0 then appendBigInt (appendVarInt b t.fracExp) t.fracCoef else b

/-- Modelled from the spec: `TimeLen`. -/
def timeLen (t : GoTime) : Nat := (appendTime [] t).length

/-- An IEEE-754 binary64 value reduced to what `WriteFloat` observes: whether
it compares equal to zero, and its bit pattern. -/
structure F64 where
  isZero : Bool
  bits : Nat
deriving DecidableEq

/-- Fixed-width big-endian bytes (used for the 8-byte float payload). -/
def beFixed : Nat → Nat → List Nat
  | 0, _ => []
  | k+1, n => beFixed k (n / 256) ++ [n % 256]

/-- The binary writer state. `out` is the byte sink's received bytes and
`sinkOK` models whether sink writes succeed (a failing sink is the
SinkIOError source). `lst` is the pre-built read-only table (nil in builder
mode) and `lstb` the builder (nil in read-only mode), as in the source. -/
structure binaryWriter where
  out : List Nat
  sinkOK : Bool
  bufs : List BufSeq
  fieldName : String
  typeAnns : List String
  err : Option IErr
  ctx : List Ctx
  lst : Option LocalSymbolTable
  lstb : Option LocalSymbolTable
  wroteLST : Bool
deriving DecidableEq

/-- Result of a writer operation: either the updated writer or a Go panic
(which aborts the process; the carried state records the side effects that
had already reached the sink). -/
inductive WRes (α : Type) where
  | ok (a : α)
  | crash (msg : String) (w : binaryWriter)
deriving DecidableEq

/-- State paired with the `error` return value of the Go helper functions. -/
abbrev HRes := WRes (binaryWriter × Option IErr)

/-- Sequencing for helpers that return an error: stop on crash or on a
returned error, mirroring the `if err != nil { return err }` pattern. -/
def hseq (r : HRes) (f : binaryWriter → HRes) : HRes :=
  match r with
  | .crash m s => .crash m s
  | .ok (w, some e) => .ok (w, some e)
  | .ok (w, none) => f w

/-- Sequencing for the public void operations (sticky errors live in the
state, so only crashes stop the chain). -/
def wseq (r : WRes binaryWriter) (f : binaryWriter → WRes binaryWriter) : WRes binaryWriter :=
  match r with
  | .crash m s => .crash m s
  | .ok w => f w

/-- Modelled from the spec: the context stack peek; empty means top level. -/
def ctxPeek (w : binaryWriter) : Option Ctx := w.ctx.head?

/-- Modelled from the spec: `InStruct`. -/
def InStruct (w : binaryWriter) : Bool := ctxPeek w = some Ctx.inStruct

/-- `emit`: at top level the bytes go to the sink (which can fail);
otherwise they are appended to the top buffered sequence. -/
def emitBytes (w : binaryWriter) (bs : List Nat) : binaryWriter × Option IErr :=
  match w.bufs with
  | [] =>
    if w.sinkOK then ({ w with out := w.out ++ bs }, none)
    else (w, some IErr.sinkError)
  | s :: rest => ({ w with bufs := { s with content := s.content ++ bs } :: rest }, none)

/-- `write`: emit the given bytes as an atom. -/
def writeA (w : binaryWriter) (bs : List Nat) : binaryWriter × Option IErr :=
  emitBytes w bs

/-- `writeTag`. -/
def writeTag (w : binaryWriter) (code : Nat) (len : Nat) : binaryWriter × Option IErr :=
  writeA w (appendTag [] code len)

/-- Modelled from the spec: `FieldName` sets the pending field name,
overriding any previous unconsumed value. -/
def FieldName (w : binaryWriter) (name : String) : binaryWriter :=
  { w with fieldName := name }

/-- Modelled from the spec: `TypeAnnotation` appends to the pending
annotation list (Go method TypeAnnotation). -/
def TypeAnn (w : binaryWriter) (a : String) : binaryWriter :=
  { w with typeAnns := w.typeAnns ++ [a] }

/-- Resolve a list of annotation texts against `w.lst` exactly as the loop in
`beginValue` does: `w.lst.FindByName` is called without a nil check, so in
builder mode (`lst = none`) this is a nil-interface dereference — a Go panic. -/
def resolveAnns (l? : Option LocalSymbolTable) (w : binaryWriter) :
    List String → WRes (Except IErr (List Int))
  | [] => .ok (.ok [])
  | a :: rest =>
    match l? with
    | none => .crash "nil lst" w
    | some l =>
      match l.FindByName a with
      | (id, true) =>
        if id < 0 then .crash "negative id" w
        else
          match resolveAnns l? w rest with
          | .crash m s => .crash m s
          | .ok (.error e) => .ok (.error e)
          | .ok (.ok ids) => .ok (.ok (id :: ids))
      | (_, false) => .ok (.error (IErr.symbolNotDefined a))

/-- `beginValue`, generic in the function used for the one-time LST
interposition (`wl` is `writeLST`; the writer performs at most one
interposition in its lifetime, which stratifies the Go recursion
beginValue → writeLST → WriteTo → beginValue). -/
def beginValueG (wl : LocalSymbolTable → binaryWriter → HRes) (w : binaryWriter) : HRes :=
  let name := w.fieldName
  let tas := w.typeAnns
  let w := { w with fieldName := "", typeAnns := [] }
  let step1 : HRes :=
    match w.lst with
    | some l => if !w.wroteLST then wl l { w with wroteLST := true } else .ok (w, none)
    | none => .ok (w, none)
  hseq step1 fun w =>
  let step2 : HRes :=
    if InStruct w then
      if name = "" then .ok (w, some IErr.fieldNameNotSet)
      else
        match w.lst with
        | none => .crash "nil lst" w
        | some l =>
          match l.FindByName name with
          | (id, true) =>
            if id < 0 then .crash "negative id" w
            else .ok (writeA w (appendVarUint [] id.toNat))
          | (_, false) => .ok (w, some (IErr.symbolNotDefined name))
    else .ok (w, none)
  hseq step2 fun w =>
  if tas.length > 0 then
    match resolveAnns w.lst w tas with
    | .crash m s => .crash m s
    | .ok (.error e) => .ok (w, some e)
    | .ok (.ok ids) =>
      let idlen := (ids.map (fun id => varUintLen id.toNat)).foldl (· + ·) 0
      let buf := (ids.map (fun id => vuBytes id.toNat)).foldl (· ++ ·) (appendVarUint [] idlen)
      let w := { w with bufs := ⟨some 0xE0, []⟩ :: w.bufs }
      .ok (writeA w buf)
  else .ok (w, none)

/-- `endValue`: pop and emit a pending annotation wrapper, if present. -/
def endValue (w : binaryWriter) : binaryWriter × Option IErr :=
  match w.bufs with
  | s :: rest =>
    if s.code = some 0xE0 then emitBytes { w with bufs := rest } s.bytes
    else (w, none)
  | [] => (w, none)

/-- `writeValue`: beginValue, the payload emitter, endValue. -/
def writeValueG (wl : LocalSymbolTable → binaryWriter → HRes)
    (f : binaryWriter → binaryWriter × Option IErr) (w : binaryWriter) : HRes :=
  hseq (beginValueG wl w) fun w =>
  hseq (.ok (f w)) fun w =>
  .ok (endValue w)

/-- `beginContainer`. -/
def beginContainerG (wl : LocalSymbolTable → binaryWriter → HRes)
    (t : Ctx) (code : Nat) (w : binaryWriter) : HRes :=
  hseq (beginValueG wl w) fun w =>
  .ok ({ w with ctx := t :: w.ctx, bufs := ⟨some code, []⟩ :: w.bufs }, none)

/-- `endContainer`: context check, pop and emit the buffered container, clear
pending state, pop the context, then `endValue`. -/
def endContainer (t : Ctx) (w : binaryWriter) : HRes :=
  if ctxPeek w ≠ some t then .ok (w, some IErr.wrongContainer)
  else
    let p :=
      match w.bufs with
      | s :: rest => emitBytes { w with bufs := rest } s.bytes
      | [] => (w, none)
    match p with
    | (w, some e) => .ok (w, some e)
    | (w, none) =>
      let w := { w with fieldName := "", typeAnns := [], ctx := w.ctx.tail }
      .ok (endValue w)

/-- `WriteNullWithType`, generic in the interposition function. -/
def WriteNullWithTypeG (wl : LocalSymbolTable → binaryWriter → HRes)
    (w : binaryWriter) (t : IonType) : WRes binaryWriter :=
  if w.err.isSome then .ok w
  else
    match writeValueG wl (fun w => writeA w [nulls t]) w with
    | .crash m s => .crash m s
    | .ok (w, e) => .ok { w with err := e }

/-- `WriteBool`, generic in the interposition function. -/
def WriteBoolG (wl : LocalSymbolTable → binaryWriter → HRes)
    (w : binaryWriter) (val : Bool) : WRes binaryWriter :=
  if w.err.isSome then .ok w
  else
    match writeValueG wl (fun w => writeA w (if val then [0x11] else [0x10])) w with
    | .crash m s => .crash m s
    | .ok (w, e) => .ok { w with err := e }

/-- The byte string built by the closure in `WriteInt`: Go computes the
magnitude as `uint64(val)`, negating with int64 two's-complement wrap first
when `val` is negative, then appends a tag and the minimal big-endian
magnitude bytes. -/
def writeIntPayload (val : Int) : List Nat :=
  if val = 0 then [0x20]
  else
    let code : Nat := if val < 0 then 0x30 else 0x20
    let mag : Nat := if val < 0 then int64ToUInt64 (wrap64 (-val)) else int64ToUInt64 val
    appendTag [] code (uintLen mag) ++ appendUint [] mag

/-- `WriteInt`, generic in the interposition function. -/
def WriteIntG (wl : LocalSymbolTable → binaryWriter → HRes)
    (w : binaryWriter) (val : Int) : WRes binaryWriter :=
  if w.err.isSome then .ok w
  else
    match writeValueG wl (fun w => writeA w (writeIntPayload val)) w with
    | .crash m s => .crash m s
    | .ok (w, e) => .ok { w with err := e }

/-- `WriteBigInt` (the magnitude bytes come from `big.Int.Bytes`, the minimal
big-endian magnitude; a payload of 64 bytes or more is emitted as two atoms). -/
def WriteBigIntG (wl : LocalSymbolTable → binaryWriter → HRes)
    (w : binaryWriter) (val : Int) : WRes binaryWriter :=
  if w.err.isSome then .ok w
  else
    let f : binaryWriter → binaryWriter × Option IErr := fun w =>
      if val = 0 then writeA w [0x20]
      else
        let code : Nat := if val < 0 then 0x30 else 0x20
        let bs := beBytes val.natAbs
        if bs.length < 64 then writeA w (appendTag [] code bs.length ++ bs)
        else
          match writeTag w code bs.length with
          | (w, some e) => (w, some e)
          | (w, none) => writeA w bs
    match writeValueG wl f w with
    | .crash m s => .crash m s
    | .ok (w, e) => .ok { w with err := e }

/-- `WriteFloat`. -/
def WriteFloatG (wl : LocalSymbolTable → binaryWriter → HRes)
    (w : binaryWriter) (val : F64) : WRes binaryWriter :=
  if w.err.isSome then .ok w
  else
    let f : binaryWriter → binaryWriter × Option IErr := fun w =>
      if val.isZero then writeA w [0x40]
      else writeA w (0x48 :: beFixed 8 val.bits)
    match writeValueG wl f w with
    | .crash m s => .crash m s
    | .ok (w, e) => .ok { w with err := e }

/-- `CoEx`. -/
def Decimal.CoEx (d : Decimal) : Int × Int := (d.coef, d.exp)

/-- The payload emitter of `WriteDecimal`. -/
def decimalPayload (d : Decimal) (w : binaryWriter) : binaryWriter × Option IErr :=
  let coef := (Decimal.CoEx d).1
  let exp := (Decimal.CoEx d).2
  let vlen := (if exp ≠ 0 then varIntLen exp else 0) +
    (if coef ≠ 0 then bigIntLen coef else 0)
  let buf := appendTag [] 0x50 vlen
  let buf := if exp ≠ 0 then appendVarInt buf exp else buf
  let buf := appendBigInt buf coef
  writeA w buf

/-- `WriteDecimal`. NOTE (faithful to the source): the result of `writeValue`
is discarded — `w.err` is not assigned, unlike every sibling method. -/
def WriteDecimalG (wl : LocalSymbolTable → binaryWriter → HRes)
    (w : binaryWriter) (d : Decimal) : WRes binaryWriter :=
  if w.err.isSome then .ok w
  else
    match writeValueG wl (decimalPayload d) w with
    | .crash m s => .crash m s
    | .ok (w, _) => .ok w

/-- `WriteTimestamp`. -/
def WriteTimestampG (wl : LocalSymbolTable → binaryWriter → HRes)
    (w : binaryWriter) (t : GoTime) : WRes binaryWriter :=
  if w.err.isSome then .ok w
  else
    let f : binaryWriter → binaryWriter × Option IErr := fun w =>
      writeA w (appendTime (appendTag [] 0x60 (timeLen t)) t)
    match writeValueG wl f w with
    | .crash m s => .crash m s
    | .ok (w, e) => .ok { w with err := e }

/-- `WriteSymbol`: the symbol is resolved before `writeValue`; in read-only
mode an unresolvable symbol sets the sticky error, in builder mode the
builder's `Add` is used (this method, unlike `beginValue`, checks `w.lst`
for nil). -/
def WriteSymbolG (wl : LocalSymbolTable → binaryWriter → HRes)
    (w : binaryWriter) (val : String) : WRes binaryWriter :=
  if w.err.isSome then .ok w
  else
    let emitSym : binaryWriter → Int → WRes binaryWriter := fun w id =>
      let f : binaryWriter → binaryWriter × Option IErr := fun w =>
        writeA w (appendTag [] 0x70 (uintLen id.toNat) ++ appendUint [] id.toNat)
      match writeValueG wl f w with
      | .crash m s => .crash m s
      | .ok (w, e) => .ok { w with err := e }
    match w.lst with
    | some l =>
      match l.FindByName val with
      | (id, true) => emitSym w id
      | (_, false) => .ok { w with err := some (IErr.symbolNotDefinedLST val) }
    | none =>
      match w.lstb with
      | none => .crash "nil lstb" w
      | some b =>
        let p := builderAdd b val
        emitSym { w with lstb := some p.2.2 } p.1

/-- The UTF-8 encoding of one character (Go strings are UTF-8 byte strings). -/
def encChar (c : Char) : List Nat :=
  let n := c.toNat
  if n < 0x80 then [n]
  else if n < 0x800 then [0xC0 + n / 64, 0x80 + n % 64]
  else if n < 0x10000 then [0xE0 + n / 4096, 0x80 + (n / 64) % 64, 0x80 + n % 64]
  else [0xF0 + n / 262144, 0x80 + (n / 4096) % 64, 0x80 + (n / 64) % 64, 0x80 + n % 64]

/-- The UTF-8 bytes of a Go string (`len(val)` is the length of this list). -/
def strBytes (val : String) : List Nat := (val.data.map encChar).flatten

/-- `WriteString`. -/
def WriteStringG (wl : LocalSymbolTable → binaryWriter → HRes)
    (w : binaryWriter) (val : String) : WRes binaryWriter :=
  if w.err.isSome then .ok w
  else
    let bs := strBytes val
    let f : binaryWriter → binaryWriter × Option IErr := fun w =>
      if bs.length = 0 then writeA w [0x80]
      else writeA w (appendTag [] 0x80 bs.length ++ bs)
    match writeValueG wl f w with
    | .crash m s => .crash m s
    | .ok (w, e) => .ok { w with err := e }

/-- `writeLob` (shared by `WriteClob` and `WriteBlob`). -/
def writeLobG (wl : LocalSymbolTable → binaryWriter → HRes)
    (code : Nat) (w : binaryWriter) (val : List Nat) : WRes binaryWriter :=
  if w.err.isSome then .ok w
  else
    let f : binaryWriter → binaryWriter × Option IErr := fun w =>
      if val.length < 64 then writeA w (appendTag [] code val.length ++ val)
      else
        match writeTag w code val.length with
        | (w, some e) => (w, some e)
        | (w, none) => writeA w val
    match writeValueG wl f w with
    | .crash m s => .crash m s
    | .ok (w, e) => .ok { w with err := e }

/-- `BeginList` / `BeginSexp` / `BeginStruct`, generic. -/
def BeginG (wl : LocalSymbolTable → binaryWriter → HRes)
    (t : Ctx) (code : Nat) (w : binaryWriter) : WRes binaryWriter :=
  if w.err.isSome then .ok w
  else
    match beginContainerG wl t code w with
    | .crash m s => .crash m s
    | .ok (w, e) => .ok { w with err := e }

/-- `EndList` / `EndSexp` / `EndStruct` (endContainer needs no interposition). -/
def EndG (t : Ctx) (w : binaryWriter) : WRes binaryWriter :=
  if w.err.isSome then .ok w
  else
    match endContainer t w with
    | .crash m s => .crash m s
    | .ok (w, e) => .ok { w with err := e }

/-- The bottom interposition function. A nested `beginValue` during an LST
write never interposes again: the read-only path sets `wroteLST` before
calling `writeLST`, and during `Finish` in builder mode `w.lst` is nil. -/
def wlBot : LocalSymbolTable → binaryWriter → HRes :=
  fun _ w => .crash "unreachable nested interposition" w

/-- The per-import body of the `imports` loop in `LocalSymbolTable.WriteTo`. -/
def writeImpsLoop : List SharedSymbolTable → binaryWriter → WRes binaryWriter
  | [], w => .ok w
  | imp :: rest, w =>
    wseq (BeginG wlBot Ctx.inStruct 0xD0 w) fun w =>
    wseq (.ok (FieldName w "name")) fun w =>
    wseq (WriteStringG wlBot w imp.name) fun w =>
    wseq (.ok (FieldName w "version")) fun w =>
    wseq (WriteIntG wlBot w imp.version) fun w =>
    wseq (.ok (FieldName w "max_id")) fun w =>
    wseq (WriteIntG wlBot w imp.MaxID) fun w =>
    wseq (EndG Ctx.inStruct w) fun w =>
    writeImpsLoop rest w

/-- The body of the `symbols` loop in `LocalSymbolTable.WriteTo`. -/
def writeSymsLoop : List String → binaryWriter → WRes binaryWriter
  | [], w => .ok w
  | sym :: rest, w =>
    wseq (WriteStringG wlBot w sym) fun w => writeSymsLoop rest w

/-- `LocalSymbolTable.WriteTo`: annotate with `$ion_symbol_table`, a struct
with the optional `imports` and `symbols` fields, then return `w.Err()`. -/
def writeToLST (t : LocalSymbolTable) (w : binaryWriter) : HRes :=
  let r :=
    wseq (.ok (TypeAnn w "$ion_symbol_table")) fun w =>
    wseq (BeginG wlBot Ctx.inStruct 0xD0 w) fun w =>
    wseq (if t.imports.length > 0 then
            wseq (.ok (FieldName w "imports")) fun w =>
            wseq (BeginG wlBot Ctx.inList 0xB0 w) fun w =>
            wseq (writeImpsLoop t.imports w) fun w =>
            EndG Ctx.inList w
          else .ok w) fun w =>
    wseq (if t.symbols.length > 0 then
            wseq (.ok (FieldName w "symbols")) fun w =>
            wseq (BeginG wlBot Ctx.inList 0xB0 w) fun w =>
            wseq (writeSymsLoop t.symbols w) fun w =>
            EndG Ctx.inList w
          else .ok w) fun w =>
    EndG Ctx.inStruct w
  match r with
  | .crash m s => .crash m s
  | .ok w => .ok (w, w.err)

/-- `writeLST`: the binary version marker, then the table's serialization. -/
def writeLST (t : LocalSymbolTable) (w : binaryWriter) : HRes :=
  match writeA w [0xE0, 0x01, 0x00, 0xEA] with
  | (w, some e) => .ok (w, some e)
  | (w, none) => writeToLST t w

def beginValue (w : binaryWriter) : HRes := beginValueG writeLST w

def WriteNullWithType (w : binaryWriter) (t : IonType) : WRes binaryWriter :=
  WriteNullWithTypeG writeLST w t

def WriteNull (w : binaryWriter) : WRes binaryWriter :=
  WriteNullWithType w IonType.nullType

def WriteBool (w : binaryWriter) (val : Bool) : WRes binaryWriter :=
  WriteBoolG writeLST w val

def WriteInt (w : binaryWriter) (val : Int) : WRes binaryWriter :=
  WriteIntG writeLST w val

def WriteBigInt (w : binaryWriter) (val : Int) : WRes binaryWriter :=
  WriteBigIntG writeLST w val

def WriteFloat (w : binaryWriter) (val : F64) : WRes binaryWriter :=
  WriteFloatG writeLST w val

def WriteDecimal (w : binaryWriter) (d : Decimal) : WRes binaryWriter :=
  WriteDecimalG writeLST w d

def WriteTimestamp (w : binaryWriter) (t : GoTime) : WRes binaryWriter :=
  WriteTimestampG writeLST w t

def WriteSymbol (w : binaryWriter) (val : String) : WRes binaryWriter :=
  WriteSymbolG writeLST w val

def WriteString (w : binaryWriter) (val : String) : WRes binaryWriter :=
  WriteStringG writeLST w val

def WriteClob (w : binaryWriter) (val : List Nat) : WRes binaryWriter :=
  writeLobG writeLST 0x90 w val

def WriteBlob (w : binaryWriter) (val : List Nat) : WRes binaryWriter :=
  writeLobG writeLST 0xA0 w val

def BeginList (w : binaryWriter) : WRes binaryWriter :=
  BeginG writeLST Ctx.inList 0xB0 w

def EndList (w : binaryWriter) : WRes binaryWriter := EndG Ctx.inList w

def BeginSexp (w : binaryWriter) : WRes binaryWriter :=
  BeginG writeLST Ctx.inSexp 0xC0 w

def EndSexp (w : binaryWriter) : WRes binaryWriter := EndG Ctx.inSexp w

def BeginStruct (w : binaryWriter) : WRes binaryWriter :=
  BeginG writeLST Ctx.inStruct 0xD0 w

def EndStruct (w : binaryWriter) : WRes binaryWriter := EndG Ctx.inStruct w

/-- `WriteValue`. Modelled from the spec: the reflection-based `Encoder` is
out of scope ("treated as external collaborators with named interfaces"), so
it is modelled as an arbitrary externally supplied function `encode` that
may drive the writer and returns the `error` result of `Encode`. Faithful to
the source, there is NO sticky-error guard: `w.err = m.Encode(val)` is
executed unconditionally. -/
def WriteValue (encode : binaryWriter → WRes (binaryWriter × Option IErr))
    (w : binaryWriter) : WRes binaryWriter :=
  match encode w with
  | .crash m s => .crash m s
  | .ok (w, e) => .ok { w with err := e }

/-- `Finish`: surface a sticky error; require top level (sticking that
error); reset pending state and `wroteLST`; in builder mode pop the single
datagram, write the built LST, then emit the datagram (assigning `w.err`),
as in the source — note the `writeLST` error is returned without being
stored in the sticky slot. -/
def Finish (w : binaryWriter) : HRes :=
  match w.err with
  | some e => .ok (w, some e)
  | none =>
    if ctxPeek w ≠ none then
      .ok ({ w with err := some IErr.notAtTopLevel }, some IErr.notAtTopLevel)
    else
      let w := { w with fieldName := "", typeAnns := [], wroteLST := false }
      match w.bufs with
      | [] => .ok (w, none)
      | seq :: rest =>
        let w := { w with bufs := rest }
        if rest ≠ [] then .crash "at top level but too many bufseqs" w
        else
          match w.lstb with
          | none => .crash "nil lstb" w
          | some b =>
            hseq (writeLST (builderBuild b) w) fun w =>
            match emitBytes w seq.bytes with
            | (w, some e) => .ok ({ w with err := some e }, some e)
            | (w, none) => .ok ({ w with err := none }, none)

/-- `NewBinaryWriter` (builder mode). Modelled from the spec for the parts
outside the provided sources: the writer owns a byte sink (`out`/`sinkOK`)
and, per §4.5/§5, all builder-mode user output is held in the buffer stack
until finalization, so the stack starts with the single top-level datagram
whose existence `Finish` treats as an invariant. -/
def NewBinaryWriter (sinkOK : Bool) (sts : List SharedSymbolTable) : binaryWriter :=
  { out := [], sinkOK := sinkOK, bufs := [⟨none, []⟩], fieldName := "",
    typeAnns := [], err := none, ctx := [], lst := none,
    lstb := some (NewSymbolTableBuilder sts), wroteLST := false }

/-- `NewBinaryWriterLST` (read-only mode): no builder, no buffering at top
level — the LST is interposed eagerly at the first `beginValue` and values
stream to the sink. -/
def NewBinaryWriterLST (sinkOK : Bool) (t : LocalSymbolTable) : binaryWriter :=
  { out := [], sinkOK := sinkOK, bufs := [], fieldName := "",
    typeAnns := [], err := none, ctx := [], lst := some t,
    lstb := none, wroteLST := false }

/-- Sequence a void operation into another void operation. -/
def wthen (r : WRes binaryWriter) (f : binaryWriter → HRes) : HRes :=
  match r with
  | .crash m s => .crash m s
  | .ok w => f w

def crashMsg {α : Type} : WRes α → Option String
  | .crash m _ => some m
  | .ok _ => none

def crashOut {α : Type} : WRes α → Option (List Nat)
  | .crash _ s => some s.out
  | .ok _ => none

def crashState {α : Type} : WRes α → Option binaryWriter
  | .crash _ s => some s
  | .ok _ => none

/-- The `error` value returned by a helper run (none on a crash). -/
def errOfH : HRes → Option IErr
  | .ok (_, e) => e
  | .crash _ _ => none

def isOkH : HRes → Bool
  | .ok _ => true
  | .crash _ _ => false

def outOfH : HRes → Option (List Nat)
  | .ok (w, _) => some w.out
  | .crash _ _ => none

/-- The sticky error slot after a void operation. -/
def stickyOf : WRes binaryWriter → Option IErr
  | .ok w => w.err
  | .crash _ _ => none

/-- Builder-mode writer over a working sink; `WriteBool(true)` then `Finish`. -/
def c1Run : HRes := wthen (WriteBool (NewBinaryWriter true []) true) Finish

/-- Builder-mode writer; `BeginStruct; FieldName "a"; WriteInt 1`. -/
def c2Run : WRes binaryWriter :=
  wseq (BeginStruct (NewBinaryWriter true [])) fun w => WriteInt (FieldName w "a") 1

/-- Read-only writer over a local table importing the system symbols. -/
def c3Writer0 : binaryWriter :=
  NewBinaryWriterLST true (NewLocalSymbolTable [V1SystemSymbolTable] [])

/-- `BeginStruct`, then the `writeValue` call that `WriteDecimal` performs
for the decimal 0d0 with no field name set (its result is what the method
discards). -/
def c3Inner : HRes :=
  wthen (BeginStruct c3Writer0) fun w => writeValueG writeLST (decimalPayload ⟨0, 0⟩) w

/-- `BeginStruct; WriteDecimal 0d0` (no field name set). -/
def c3Run1 : WRes binaryWriter :=
  wseq (BeginStruct c3Writer0) fun w => WriteDecimal w ⟨0, 0⟩

/-- The full scenario: struct with a failing `WriteDecimal`, closed, finished. -/
def c3Run2 : HRes := wthen (wseq c3Run1 EndStruct) Finish

/-- A trivial external encoder run: touches nothing and reports success. -/
def encTrivial : binaryWriter → WRes (binaryWriter × Option IErr) := fun w => .ok (w, none)

/-- A writer whose sticky error slot is set. -/
def c4w : binaryWriter := { NewBinaryWriter true [] with err := some IErr.sinkError }

/-- Builder-mode writer over a failing sink; first `Finish`. -/
def c5Run1 : HRes := wthen (WriteBool (NewBinaryWriter false []) true) Finish

/-- Second `Finish` on the state the first one left behind. -/
def c5Run2 : HRes :=
  match c5Run1 with
  | .ok (w, _) => Finish w
  | .crash m s => .crash m s

instance : Inhabited SharedSymbolTable := ⟨⟨"", 0, [], []⟩⟩

/-- The running total used by `processImports`. -/
def sumI (l : List Int) : Int := l.foldl (· + ·) 0

/-- Well-formed local table: offsets and maxImportID as `processImports`
computes them (every table built by `NewLocalSymbolTable` or the builder
satisfies this). -/
def wfLST (t : LocalSymbolTable) : Prop :=
  t.offsets = preSums 0 (t.imports.map SharedSymbolTable.MaxID) ∧
  t.maxImportID = sumI (t.imports.map SharedSymbolTable.MaxID)

instance (t : LocalSymbolTable) : Decidable (wfLST t) := by
  unfold wfLST; infer_instance

/-- The specification-side scan: the first import whose cumulative id range
reaches `id`, together with its offset. -/
def specFind (id : Int) : List SharedSymbolTable → Int → Option (SharedSymbolTable × Int)
  | [], _ => none
  | imp :: rest, off =>
    if id ≤ off + imp.MaxID then some (imp, off) else specFind id rest (off + imp.MaxID)

/-- Imports paired with their running offsets. -/
def zipOffs : List SharedSymbolTable → Int → List (SharedSymbolTable × Int)
  | [], _ => []
  | imp :: rest, o => (imp, o) :: zipOffs rest (o + imp.MaxID)

/-- The concrete table used by the C8 witness: imports of MaxID 2, 0 and 3
plus one local symbol. -/
def c8T : LocalSymbolTable :=
  NewLocalSymbolTable [NewSharedSymbolTable "A" 1 ["a1", "a2"],
    NewSharedSymbolTable "B" 1 [], NewSharedSymbolTable "C" 1 ["c1", "c2", "c3"]]
    ["loc"]

/-- The invariant relating the index map to the de-duplicated copy: a symbol
is indexed exactly when it occurs in the copy, with value `offset + position`
(1-based). -/
def invIdx (off : Int) (idx : List (String × Int)) (cp : List String) : Prop :=
  ∀ s : String, lookupA idx s =
    if s ∈ cp then some (off + (cp.indexOf s : Nat) + 1) else none

structure Store where
  arrs : List (List String)
  maps : List (List (String × Int))
deriving DecidableEq

structure SliceRef where
  arr : Nat
  len : Nat
deriving DecidableEq

structure MapRef where
  mid : Nat
deriving DecidableEq

def readArr (s : Store) (i : Nat) : List String := s.arrs.getD i []

def readSlice (s : Store) (r : SliceRef) : List String := (readArr s r.arr).take r.len

def writeArr (s : Store) (i : Nat) (a : List String) : Store :=
  { s with arrs := s.arrs.set i a }

def allocArr (s : Store) (a : List String) : Store × Nat :=
  ({ s with arrs := s.arrs ++ [a] }, s.arrs.length)

def readMap (s : Store) (r : MapRef) : List (String × Int) := s.maps.getD r.mid []

def writeMap (s : Store) (r : MapRef) (m : List (String × Int)) : Store :=
  { s with maps := s.maps.set r.mid m }

def allocMap (s : Store) (m : List (String × Int)) : Store × Nat :=
  ({ s with maps := s.maps ++ [m] }, s.maps.length)

/-- A symbol table whose symbols/index live in the store. -/
structure HTable where
  imports : List SharedSymbolTable
  offsets : List Int
  maxImportID : Int
  symbols : SliceRef
  index : MapRef
deriving DecidableEq

/-- The observable value of a heap table: the pure table read from the
store; `MaxID`, `FindByName` and `FindByID` on the heap table are the pure
functions applied to this. -/
def toLocal (s : Store) (t : HTable) : LocalSymbolTable :=
  { imports := t.imports, offsets := t.offsets, maxImportID := t.maxImportID,
    symbols := readSlice s t.symbols, index := readMap s t.index }

/-- Go `append` on the builder's slice: write the extended contents either
in place or into a fresh cell. -/
def appendSlice (s : Store) (r : SliceRef) (x : String) (realloc : Bool) :
    Store × SliceRef :=
  let content := readSlice s r ++ [x]
  if realloc then
    let p := allocArr s content
    (p.1, ⟨p.2, r.len + 1⟩)
  else
    (writeArr s r.arr content, ⟨r.arr, r.len + 1⟩)

/-- `symbolTableBuilder.Add` at the heap level. -/
def hAdd (s : Store) (b : HTable) (sym : String) (realloc : Bool) :
    Int × Bool × Store × HTable :=
  match (toLocal s b).FindByName sym with
  | (id, true) => (id, false, s, b)
  | _ =>
    let p := appendSlice s b.symbols sym realloc
    let id := b.maxImportID + ((p.2.len : Nat) : Int)
    let s2 := writeMap p.1 b.index (insertA (readMap p.1 b.index) sym id)
    (id, true, s2, { b with symbols := p.2 })

/-- `symbolTableBuilder.Build` at the heap level: copy the symbols into a
fresh array and the index into a fresh map. -/
def hBuild (s : Store) (b : HTable) : Store × HTable :=
  let content := readSlice s b.symbols
  let pa := allocArr s content
  let pm := allocMap pa.1 (readMap pa.1 b.index)
  (pm.1, { b with symbols := ⟨pa.2, content.length⟩, index := ⟨pm.2⟩ })

/-- Run a sequence of `Add` calls (symbol plus realloc flag) on the builder. -/
def applyAdds (s : Store) (b : HTable) : List (String × Bool) → Store × HTable
  | [] => (s, b)
  | (sym, rb) :: rest =>
    let r := hAdd s b sym rb
    applyAdds r.2.2.1 r.2.2.2 rest

/-- The builder's references point into the store. -/
def validRefs (s : Store) (b : HTable) : Prop :=
  b.symbols.arr < s.arrs.length ∧ b.index.mid < s.maps.length

instance (s : Store) (b : HTable) : Decidable (validRefs s b) := by
  unfold validRefs; infer_instance

/-- The frame invariant carried through the post-Build adds: the snapshot's
cells are unchanged relative to the store `s1` right after `Build`, they
stay within bounds, and the builder's references never alias them. -/
def frameInv (s1 : Store) (t : HTable) (s : Store) (b : HTable) : Prop :=
  s.arrs.getD t.symbols.arr [] = s1.arrs.getD t.symbols.arr [] ∧
  s.maps.getD t.index.mid [] = s1.maps.getD t.index.mid [] ∧
  t.symbols.arr < s.arrs.length ∧ t.index.mid < s.maps.length ∧
  b.symbols.arr ≠ t.symbols.arr ∧ b.index.mid ≠ t.index.mid ∧
  b.symbols.arr < s.arrs.length ∧ b.index.mid < s.maps.length

/-- C1: REFUTED (code bug). In builder mode, `WriteBool(true); Finish()` does
not deliver `E0 01 00 EA 11`: `Finish` panics with a nil dereference while
serializing the local symbol table (`beginValue` resolves the
`$ion_symbol_table` annotation through `w.lst`, which is nil in builder
mode), after only the four version-marker bytes have reached the sink. -/
theorem c1_finish_in_builder_mode_crashes :
    crashMsg c1Run = some "nil lst" ∧ crashOut c1Run = some [0xE0, 0x01, 0x00, 0xEA] := by
  decide

/-- C2: REFUTED (code bug). Writing a value inside a struct with a pending
field name in builder mode panics: `beginValue` calls `w.lst.FindByName` on
the nil `w.lst` instead of adding the name to the symbol table builder; the
crash state shows the builder still empty and no bytes delivered. -/
theorem c2_builder_field_name_crashes :
    crashMsg c2Run = some "nil lst" ∧ crashOut c2Run = some [] ∧
      (crashState c2Run).map binaryWriter.lstb =
        some (some (NewSymbolTableBuilder [])) := by
  decide

/-- C3: REFUTED (code bug). The `writeValue` call inside `WriteDecimal`
raises the field-name-not-set error while the sticky slot is clear, but
`WriteDecimal` discards the result instead of assigning `w.err` (unlike
every sibling method), so the slot stays clear and `Finish` reports
success. -/
theorem c3_writeDecimal_error_not_sticky :
    errOfH c3Inner = some IErr.fieldNameNotSet ∧
      stickyOf c3Run1 = none ∧
      isOkH c3Run2 = true ∧ errOfH c3Run2 = none := by
  decide

/-- C4: REFUTED (code bug). `WriteValue` lacks the sticky-error guard of
every other write method: it invokes the encoder unconditionally and stores
the encoder's result in the sticky slot, so with a sticky error present and
an encoder run that reports success the sticky error is erased — the call
is not a no-op. -/
theorem c4_writeValue_ignores_sticky_error :
    WriteValue encTrivial c4w ≠ WRes.ok c4w ∧
      stickyOf (WriteValue encTrivial c4w) = none ∧ c4w.err = some IErr.sinkError := by
  decide

/-- C5: REFUTED (code bug). With a failing sink, the first `Finish` of a
builder-mode writer returns the sink error from `writeLST` without storing
it in the sticky slot, so a second `Finish` returns success instead of the
same error (neither call delivers bytes). -/
theorem c5_finish_not_idempotent :
    errOfH c5Run1 = some IErr.sinkError ∧ isOkH c5Run1 = true ∧
      errOfH c5Run2 = none ∧ isOkH c5Run2 = true ∧
      outOfH c5Run1 = some [] ∧ outOfH c5Run2 = some [] := by
  decide

theorem beF_zero (f : Nat) : beF f 0 = [] := by
  cases f <;> simp [beF]

theorem beVal_append_last (l : List Nat) (b : Nat) :
    beVal (l ++ [b]) = 256 * beVal l + b := by
  simp [beVal, List.foldl_append]

theorem beVal_beF (f : Nat) : ∀ n, n < 256 ^ f → beVal (beF f n) = n := by
  induction f with
  | zero => intro n h; interval_cases n; simp [beF, beVal]
  | succ f ih =>
    intro n h
    by_cases h0 : n = 0
    · subst h0; simp [beF, beVal]
    · rw [beF, if_neg h0, beVal_append_last, ih (n / 256) ?_, Nat.div_add_mod]
      exact Nat.div_lt_of_lt_mul (by rw [pow_succ, mul_comm] at h; exact h)

theorem beF_len_le (f k : Nat) : ∀ n, n < 256 ^ k → k ≤ f → (beF f n).length ≤ k := by
  induction f generalizing k with
  | zero => intro n _ _; simp [beF]
  | succ f ih =>
    intro n hn hk
    by_cases h0 : n = 0
    · subst h0; simp [beF_zero]
    · match k with
      | 0 => exact absurd (Nat.lt_one_iff.mp hn) h0
      | k + 1 =>
        rw [beF, if_neg h0]
        simp only [List.length_append, List.length_cons, List.length_nil]
        have hd : n / 256 < 256 ^ k :=
          Nat.div_lt_of_lt_mul (by rw [pow_succ, mul_comm] at hn; exact hn)
        have := ih k (n / 256) hd (Nat.succ_le_succ_iff.mp hk)
        omega

theorem beF_ne_nil (f : Nat) : ∀ n, 0 < n → n < 256 ^ f → beF f n ≠ [] := by
  intro n hn hf
  match f with
  | 0 => omega
  | f + 1 =>
    rw [beF, if_neg (by omega)]
    simp

theorem beF_head_ne_zero (f : Nat) : ∀ n, 0 < n → n < 256 ^ f →
    (beF f n).headD 0 ≠ 0 := by
  induction f with
  | zero => intro n hn hf; omega
  | succ f ih =>
    intro n hn hf
    rw [beF, if_neg (by omega)]
    by_cases hsmall : n < 256
    · have h256 : n / 256 = 0 := Nat.div_eq_of_lt hsmall
      rw [h256, beF_zero]
      simp only [List.nil_append, List.headD_cons]
      omega
    · have hdpos : 0 < n / 256 := Nat.div_pos (by omega) (by omega)
      have hdlt : n / 256 < 256 ^ f :=
        Nat.div_lt_of_lt_mul (by rw [pow_succ, mul_comm] at hf; exact hf)
      have hne := beF_ne_nil f (n / 256) hdpos hdlt
      obtain ⟨a, l, hl⟩ := List.exists_cons_of_ne_nil hne
      have hh := ih (n / 256) hdpos hdlt
      rw [hl] at hh ⊢
      simpa using hh

theorem n_lt_pow256 (n : Nat) : n < 256 ^ (n + 64) :=
  lt_of_lt_of_le (Nat.lt_two_pow n)
    (le_trans (Nat.pow_le_pow_right (by omega) (by omega))
      (Nat.pow_le_pow_left (by omega) _))

theorem beVal_beBytes (n : Nat) : beVal (beBytes n) = n :=
  beVal_beF _ n (n_lt_pow256 n)

theorem beBytes_head_ne_zero (n : Nat) (h : 0 < n) : (beBytes n).headD 0 ≠ 0 :=
  beF_head_ne_zero _ n h (n_lt_pow256 n)

theorem beBytes_len_le_of_lt (n k : Nat) (h : n < 256 ^ k) (hk : k ≤ n + 64) :
    (beBytes n).length ≤ k :=
  beF_len_le _ k n h hk

/-- The Go magnitude computation agrees with `natAbs` on the whole int64
range, including the wrap at the most negative value. -/
theorem mag_eq_natAbs (val : Int) (h1 : -(2 ^ 63) ≤ val) (h2 : val < 2 ^ 63) :
    (if val < 0 then int64ToUInt64 (wrap64 (-val)) else int64ToUInt64 val) = val.natAbs := by
  by_cases hneg : val < 0
  · rw [if_pos hneg]
    by_cases hmin : val = -(2 ^ 63)
    · subst hmin; decide
    · unfold wrap64 int64ToUInt64
      have e1 : (-val + 2 ^ 63) % 2 ^ 64 = -val + 2 ^ 63 :=
        Int.emod_eq_of_lt (by omega) (by omega)
      rw [e1]
      have e3 : -val + 2 ^ 63 - 2 ^ 63 = -val := by ring
      rw [e3]
      have e2 : (-val) % 2 ^ 64 = -val := Int.emod_eq_of_lt (by omega) (by omega)
      rw [e2]
      omega
  · rw [if_neg hneg]
    unfold int64ToUInt64
    have e1 : val % 2 ^ 64 = val := Int.emod_eq_of_lt (by omega) (by omega)
    rw [e1]
    omega

/-- C6: CONFIRMED. For every int64 value, `WriteInt` emits `0x20` for zero
and otherwise a single tag byte — high nibble `0x20` (positive) or `0x30`
(negative), low nibble the byte length — followed by the minimal big-endian
bytes of the magnitude; the decoder/leading-byte conjuncts certify that
`beBytes |v|` really is the minimal big-endian representation, and the
result covers `-2^63`, whose magnitude survives the two's-complement wrap. -/
theorem c6_writeInt_minimal_encoding (val : Int)
    (h1 : -(2 ^ 63) ≤ val) (h2 : val < 2 ^ 63) :
    writeIntPayload val =
      (if val = 0 then [0x20]
       else ((if val < 0 then 0x30 else 0x20) + (beBytes val.natAbs).length)
          :: beBytes val.natAbs) ∧
    beVal (beBytes val.natAbs) = val.natAbs ∧
    (val ≠ 0 → (beBytes val.natAbs).headD 0 ≠ 0) := by
  refine ⟨?_, beVal_beBytes _, fun h0 => beBytes_head_ne_zero _ (by omega)⟩
  by_cases h0 : val = 0
  · subst h0; rfl
  · have hmag := mag_eq_natAbs val h1 h2
    have habs : val.natAbs < 256 ^ 8 := by
      have h28 : (256 : Nat) ^ 8 = 2 ^ 64 := by norm_num
      rw [h28]
      omega
    have hlen : (beBytes val.natAbs).length ≤ 8 :=
      beBytes_len_le_of_lt _ 8 habs (by omega)
    have hlt : uintLen val.natAbs < 14 := by
      unfold uintLen; omega
    simp only [writeIntPayload, if_neg h0, hmag]
    simp only [appendTag, if_pos hlt, appendUint]
    simp [uintLen]

/-- Witness for C6 at the most negative int64 value: the hypotheses hold at
`-2^63` and the encoding is the `0x38` tag followed by the eight magnitude
bytes of `2^63`. -/
theorem c6_writeInt_minimal_encoding_witness :
    ((-(2 ^ 63) : Int) ≤ -(2 ^ 63) ∧ ((-(2 ^ 63) : Int) < 2 ^ 63)) ∧
    beVal (beBytes (Int.natAbs (-(2 ^ 63)))) = Int.natAbs (-(2 ^ 63)) ∧
    writeIntPayload (-(2 ^ 63)) = [0x38, 0x80, 0, 0, 0, 0, 0, 0, 0] := by
  refine ⟨⟨by decide, by decide⟩,
    (c6_writeInt_minimal_encoding (-(2 ^ 63)) (by decide) (by decide)).2.1, ?_⟩
  have h := (c6_writeInt_minimal_encoding (-(2 ^ 63)) (by decide) (by decide)).1
  rw [h]
  decide

theorem getD_tail_succ (offs : List Int) (j : Nat) :
    offs.getD (j + 1) 0 = offs.tail.getD j 0 := by
  cases offs <;> simp

theorem fbnAux_hit (s : String) :
    ∀ (imps : List SharedSymbolTable) (offs : List Int) (i : Nat) (h : i < imps.length),
    ((imps.get ⟨i, h⟩).FindByName s).2 = true →
    (∀ j (hj : j < imps.length), j < i → ((imps.get ⟨j, hj⟩).FindByName s).2 = false) →
    fbnAux imps offs s = some (offs.getD i 0 + ((imps.get ⟨i, h⟩).FindByName s).1) := by
  intro imps
  induction imps with
  | nil => intro offs i h; exact absurd h (by simp)
  | cons imp rest ih =>
    intro offs i h hhit hmiss
    cases i with
    | zero =>
      simp only [List.get] at hhit ⊢
      rw [fbnAux]
      rcases hr : imp.FindByName s with ⟨id, ok⟩
      simp only [hr] at hhit ⊢
      cases ok with
      | true => cases offs <;> simp
      | false => simp at hhit
    | succ i =>
      have hm0 := hmiss 0 (by simp) (by omega)
      simp only [List.get] at hm0
      rw [fbnAux]
      rcases hr : imp.FindByName s with ⟨id, ok⟩
      simp only [hr] at hm0
      cases ok with
      | true => simp at hm0
      | false =>
        simp only [List.length_cons, Nat.add_lt_add_iff_right] at h
        rw [getD_tail_succ]
        exact ih offs.tail i h hhit
          (fun j hj hji => hmiss (j + 1) (by simpa using hj) (by omega))

theorem fbnAux_none (s : String) :
    ∀ (imps : List SharedSymbolTable) (offs : List Int),
    (∀ i (h : i < imps.length), ((imps.get ⟨i, h⟩).FindByName s).2 = false) →
    fbnAux imps offs s = none := by
  intro imps
  induction imps with
  | nil => intro offs _; rfl
  | cons imp rest ih =>
    intro offs hmiss
    have hm0 := hmiss 0 (by simp)
    simp only [List.get] at hm0
    rw [fbnAux]
    rcases hr : imp.FindByName s with ⟨id, ok⟩
    simp only [hr] at hm0
    cases ok with
    | true => simp at hm0
    | false => exact ih offs.tail (fun j hj => hmiss (j + 1) (by simpa using hj))

/-- C7: CONFIRMED. `LocalSymbolTable.FindByName` searches the imports in
declaration order: the first import containing the symbol wins with id
`offset[i] + localId`; the local index is consulted only when no import
contains the symbol; a symbol found nowhere yields `(0, false)`. -/
theorem c7_findByName_first_import_wins (t : LocalSymbolTable) (s : String) :
    (∀ i (h : i < t.imports.length),
        ((t.imports.get ⟨i, h⟩).FindByName s).2 = true →
        (∀ j (hj : j < t.imports.length), j < i →
          ((t.imports.get ⟨j, hj⟩).FindByName s).2 = false) →
        t.FindByName s =
          (t.offsets.getD i 0 + ((t.imports.get ⟨i, h⟩).FindByName s).1, true)) ∧
    ((∀ i (h : i < t.imports.length), ((t.imports.get ⟨i, h⟩).FindByName s).2 = false) →
        ((∀ id, lookupA t.index s = some id → t.FindByName s = (id, true)) ∧
         (lookupA t.index s = none → t.FindByName s = (0, false)))) := by
  constructor
  · intro i h hhit hmiss
    rw [LocalSymbolTable.FindByName, fbnAux_hit s t.imports t.offsets i h hhit hmiss]
  · intro hmiss
    rw [LocalSymbolTable.FindByName, fbnAux_none s t.imports t.offsets hmiss]
    constructor
    · intro id hid; rw [hid]
    · intro hid; rw [hid]

/-- Witness for C7: a table with two imports both defining `x`; the
earliest import wins (`x` has local id 2 in the first import, offset 0),
and a symbol defined nowhere yields `(0, false)`. -/
theorem c7_findByName_first_import_wins_witness :
    (((NewLocalSymbolTable [NewSharedSymbolTable "A" 1 ["a", "x"],
        NewSharedSymbolTable "B" 1 ["x", "b"]] ["y"]).imports.get
          ⟨0, by decide⟩).FindByName "x").2 = true ∧
    (NewLocalSymbolTable [NewSharedSymbolTable "A" 1 ["a", "x"],
        NewSharedSymbolTable "B" 1 ["x", "b"]] ["y"]).FindByName "x" = (2, true) := by
  constructor
  · decide
  · have h := (c7_findByName_first_import_wins
      (NewLocalSymbolTable [NewSharedSymbolTable "A" 1 ["a", "x"],
        NewSharedSymbolTable "B" 1 ["x", "b"]] ["y"]) "x").1 0 (by decide)
      (by decide) (fun j hj hji => absurd hji (by omega))
    rw [h]
    decide

theorem wf_NewLocalSymbolTable (imps : List SharedSymbolTable) (syms : List String) :
    wfLST (NewLocalSymbolTable imps syms) := ⟨rfl, rfl⟩

theorem wf_NewSymbolTableBuilder (imps : List SharedSymbolTable) :
    wfLST (NewSymbolTableBuilder imps) := ⟨rfl, rfl⟩

theorem foldl_add_shift (l : List Int) : ∀ a : Int, l.foldl (· + ·) a = a + sumI l := by
  induction l with
  | nil => intro a; simp [sumI]
  | cons x t ih =>
    intro a
    show List.foldl (· + ·) (a + x) t = a + sumI (x :: t)
    rw [ih (a + x)]
    show a + x + sumI t = a + List.foldl (· + ·) (0 + x) t
    rw [ih (0 + x)]
    ring

theorem sumI_cons (x : Int) (l : List Int) : sumI (x :: l) = x + sumI l := by
  show List.foldl (· + ·) (0 + x) l = x + sumI l
  rw [foldl_add_shift]
  ring

theorem sumI_append (a b : List Int) : sumI (a ++ b) = sumI a + sumI b := by
  unfold sumI
  rw [List.foldl_append, foldl_add_shift]
  rfl

theorem sumI_nonneg (l : List Int) (h : ∀ x ∈ l, 0 ≤ x) : 0 ≤ sumI l := by
  induction l with
  | nil => simp [sumI]
  | cons x t ih =>
    rw [sumI_cons]
    have hx := h x (by simp)
    have ht := ih (fun y hy => h y (by simp [hy]))
    omega

theorem mapMaxID_nonneg (imps : List SharedSymbolTable) :
    ∀ x ∈ imps.map SharedSymbolTable.MaxID, 0 ≤ x := by
  intro x hx
  obtain ⟨imp, _, rfl⟩ := List.mem_map.mp hx
  exact Int.natCast_nonneg _

theorem preSums_getD (ms : List Int) : ∀ (acc : Int) (i : Nat), i < ms.length →
    (preSums acc ms).getD i 0 = acc + sumI (ms.take i) := by
  induction ms with
  | nil => intro acc i h; simp at h
  | cons m rest ih =>
    intro acc i h
    match i with
    | 0 => simp [preSums, sumI]
    | i + 1 =>
      show (preSums (acc + m) rest).getD i 0 = acc + sumI (m :: rest.take i)
      rw [ih (acc + m) i (by simpa using h), sumI_cons]
      ring

theorem getD_map_maxID (imps : List SharedSymbolTable) : ∀ i, i < imps.length →
    (imps.map SharedSymbolTable.MaxID).getD i 0 = (imps.getD i default).MaxID := by
  induction imps with
  | nil => intro i h; simp at h
  | cons imp rest ih =>
    intro i h
    match i with
    | 0 => rfl
    | i + 1 => exact ih i (by simpa using h)

theorem sumI_take_succ (l : List Int) : ∀ i, i < l.length →
    sumI (l.take (i + 1)) = sumI (l.take i) + l.getD i 0 := by
  induction l with
  | nil => intro i h; simp at h
  | cons x xs ih =>
    intro i h
    match i with
    | 0 => simp [sumI_cons, sumI]
    | i + 1 =>
      show sumI (x :: xs.take (i + 1)) = sumI (x :: xs.take i) + xs.getD i 0
      rw [sumI_cons, sumI_cons, ih i (by simpa using h)]
      ring

theorem sumI_take_mono (l : List Int) (hnn : ∀ x ∈ l, 0 ≤ x) (i j : Nat) (hij : i ≤ j) :
    sumI (l.take i) ≤ sumI (l.take j) := by
  have hj : j = i + (j - i) := by omega
  rw [hj, List.take_add, sumI_append]
  have : 0 ≤ sumI ((l.drop i).take (j - i)) := by
    refine sumI_nonneg _ (fun x hx => hnn x ?_)
    exact List.mem_of_mem_drop (List.mem_of_mem_take hx)
  omega

theorem zip_preSums (imps : List SharedSymbolTable) : ∀ acc : Int,
    imps.zip (preSums acc (imps.map SharedSymbolTable.MaxID)) = zipOffs imps acc := by
  induction imps with
  | nil => intro acc; rfl
  | cons imp rest ih =>
    intro acc
    show (imp, acc) :: rest.zip (preSums (acc + imp.MaxID) _) = _
    rw [ih (acc + imp.MaxID)]
    rfl

theorem specFind_at_index (imps : List SharedSymbolTable) :
    ∀ (base : Int) (i : Nat), i < imps.length → ∀ id : Int,
    (preSums base (imps.map SharedSymbolTable.MaxID)).getD i 0 < id →
    id ≤ (preSums base (imps.map SharedSymbolTable.MaxID)).getD i 0 +
      (imps.getD i default).MaxID →
    specFind id imps base =
      some (imps.getD i default,
        (preSums base (imps.map SharedSymbolTable.MaxID)).getD i 0) := by
  induction imps with
  | nil => intro base i h; simp at h
  | cons imp rest ih =>
    intro base i h id hlo hhi
    match i with
    | 0 =>
      have hgd : (preSums base ((imp :: rest).map SharedSymbolTable.MaxID)).getD 0 0 = base := rfl
      rw [hgd] at hlo hhi
      rw [specFind, if_pos (by simpa using hhi)]
      rw [hgd]
      rfl
    | i + 1 =>
      have hstep :
          (preSums base ((imp :: rest).map SharedSymbolTable.MaxID)).getD (i + 1) 0 =
            (preSums (base + imp.MaxID) (rest.map SharedSymbolTable.MaxID)).getD i 0 := rfl
      have hrest : i < rest.length := by simpa using h
      have hge : base + imp.MaxID ≤
          (preSums (base + imp.MaxID) (rest.map SharedSymbolTable.MaxID)).getD i 0 := by
        rw [preSums_getD _ _ i (by simpa using hrest)]
        have := sumI_nonneg ((rest.map SharedSymbolTable.MaxID).take i)
          (fun x hx => mapMaxID_nonneg rest x (List.mem_of_mem_take hx))
        omega
      rw [hstep] at hlo hhi
      rw [specFind, if_neg (by omega)]
      rw [hstep]
      exact ih (base + imp.MaxID) i hrest id hlo hhi

theorem fbiAux_of_specFind (id : Int) :
    ∀ (rest : List SharedSymbolTable) (prev : SharedSymbolTable) (poff : Int)
      (imp : SharedSymbolTable) (off : Int),
    specFind id (prev :: rest) poff = some (imp, off) →
    fbiAux id prev poff (zipOffs rest (poff + prev.MaxID)) = (imp, off) := by
  intro rest
  induction rest with
  | nil =>
    intro prev poff imp off hs
    rw [specFind] at hs
    by_cases hc : id ≤ poff + prev.MaxID
    · rw [if_pos hc] at hs
      exact Option.some.inj hs
    · rw [if_neg hc] at hs
      simp [specFind] at hs
  | cons i1 r ih =>
    intro prev poff imp off hs
    rw [specFind] at hs
    by_cases hc : id ≤ poff + prev.MaxID
    · rw [if_pos hc] at hs
      simp only [zipOffs, fbiAux, if_pos hc]
      exact Option.some.inj hs
    · rw [if_neg hc] at hs
      simp only [zipOffs, fbiAux, if_neg hc]
      exact ih i1 (poff + prev.MaxID) imp off hs

theorem fbi_at (imp0 : SharedSymbolTable) (rest : List SharedSymbolTable)
    (id : Int) (i : Nat) (h : i < (imp0 :: rest).length)
    (hlo : (preSums 0 ((imp0 :: rest).map SharedSymbolTable.MaxID)).getD i 0 < id)
    (hhi : id ≤ (preSums 0 ((imp0 :: rest).map SharedSymbolTable.MaxID)).getD i 0 +
      ((imp0 :: rest).getD i default).MaxID) :
    fbiAux id imp0 0
        (rest.zip ((preSums 0 ((imp0 :: rest).map SharedSymbolTable.MaxID)).drop 1)) =
      ((imp0 :: rest).getD i default,
        (preSums 0 ((imp0 :: rest).map SharedSymbolTable.MaxID)).getD i 0) := by
  have hdrop : (preSums 0 ((imp0 :: rest).map SharedSymbolTable.MaxID)).drop 1
      = preSums (0 + imp0.MaxID) (rest.map SharedSymbolTable.MaxID) := rfl
  rw [hdrop, zip_preSums rest (0 + imp0.MaxID)]
  exact fbiAux_of_specFind id rest imp0 0 _ _
    (specFind_at_index (imp0 :: rest) 0 i h id hlo hhi)

theorem range_dominates (imps : List SharedSymbolTable) (id : Int) (i i' : Nat)
    (h : i < imps.length) (h' : i' < imps.length) (hij : i < i')
    (hhi : id ≤ (preSums 0 (imps.map SharedSymbolTable.MaxID)).getD i 0 +
      (imps.getD i default).MaxID) :
    id ≤ (preSums 0 (imps.map SharedSymbolTable.MaxID)).getD i' 0 := by
  have hnn := mapMaxID_nonneg imps
  have hmsl : (imps.map SharedSymbolTable.MaxID).length = imps.length := by simp
  rw [preSums_getD _ 0 i (by omega)] at hhi
  rw [preSums_getD _ 0 i' (by omega)]
  have h1 := sumI_take_succ (imps.map SharedSymbolTable.MaxID) i (by omega)
  have h2 := sumI_take_mono (imps.map SharedSymbolTable.MaxID) hnn (i + 1) i' (by omega)
  have h3 := getD_map_maxID imps i h
  omega

/-- C8: CONFIRMED. For a well-formed local table, `FindByID` partitions the
id space: an id in the range `(offset[i], offset[i] + MaxID_i]` of import `i`
(the unique import whose range contains it — imports with MaxID 0 have empty
ranges and are skipped) is delegated to that import at position
`id - offset[i]` and succeeds; an id in `(maxImportID, MaxID]` indexes the
local list; everything else yields `("", false)`. -/
theorem c8_findByID_partition (t : LocalSymbolTable) (hwf : wfLST t) (id : Int) :
    (∀ i, i < t.imports.length →
        t.offsets.getD i 0 < id →
        id ≤ t.offsets.getD i 0 + (t.imports.getD i default).MaxID →
        (t.FindByID id =
            (t.imports.getD i default).FindByID (id - t.offsets.getD i 0) ∧
          ((t.imports.getD i default).FindByID (id - t.offsets.getD i 0)).2 = true ∧
          ∀ i', i' < t.imports.length →
            t.offsets.getD i' 0 < id →
            id ≤ t.offsets.getD i' 0 + (t.imports.getD i' default).MaxID → i' = i)) ∧
    (t.maxImportID < id → id ≤ t.MaxID →
        t.FindByID id = (t.symbols.getD (id - t.maxImportID - 1).toNat "", true)) ∧
    ((id ≤ 0 ∨ t.MaxID < id) → t.FindByID id = ("", false)) := by
  obtain ⟨hoff, hmax⟩ := hwf
  have hnn := mapMaxID_nonneg t.imports
  have hmsl : (t.imports.map SharedSymbolTable.MaxID).length = t.imports.length := by simp
  have hmaxnn : 0 ≤ t.maxImportID := by
    rw [hmax]; exact sumI_nonneg _ hnn
  have hMdef : LocalSymbolTable.MaxID t = t.maxImportID + (t.symbols.length : Int) := rfl
  refine ⟨?_, ?_, ?_⟩
  · intro i hi hlo hhi
    have hgdi : t.offsets.getD i 0 =
        0 + sumI ((t.imports.map SharedSymbolTable.MaxID).take i) := by
      rw [hoff]; exact preSums_getD _ 0 i (by omega)
    have htknn : 0 ≤ sumI ((t.imports.map SharedSymbolTable.MaxID).take i) :=
      sumI_nonneg _ (fun x hx => hnn x (List.mem_of_mem_take hx))
    have hMi : (t.imports.map SharedSymbolTable.MaxID).getD i 0
        = (t.imports.getD i default).MaxID := getD_map_maxID t.imports i hi
    have hts := sumI_take_succ (t.imports.map SharedSymbolTable.MaxID) i (by omega)
    have hsplit : sumI (t.imports.map SharedSymbolTable.MaxID)
        = sumI ((t.imports.map SharedSymbolTable.MaxID).take (i + 1))
          + sumI ((t.imports.map SharedSymbolTable.MaxID).drop (i + 1)) := by
      conv_lhs => rw [← List.take_append_drop (i + 1) (t.imports.map SharedSymbolTable.MaxID)]
      exact sumI_append _ _
    have hdrnn : 0 ≤ sumI ((t.imports.map SharedSymbolTable.MaxID).drop (i + 1)) :=
      sumI_nonneg _ (fun x hx => hnn x (List.mem_of_mem_drop hx))
    have hidpos : 0 < id := by omega
    have hidle : id ≤ t.maxImportID := by rw [hmax]; omega
    have hMidef : (t.imports.getD i default).MaxID
        = ((t.imports.getD i default).symbols.length : Int) := rfl
    refine ⟨?_, ?_, ?_⟩
    · simp only [LocalSymbolTable.FindByID]
      rw [if_neg (by omega), if_pos hidle]
      obtain ⟨imp0, rest, himps⟩ :=
        List.exists_cons_of_ne_nil (l := t.imports)
          (by intro h0; rw [h0] at hi; simp at hi)
      rw [himps] at hoff
      have hi2 : i < (imp0 :: rest).length := by rw [himps] at hi; exact hi
      have hlo2 : (preSums 0 ((imp0 :: rest).map SharedSymbolTable.MaxID)).getD i 0 < id := by
        rw [hoff] at hlo; exact hlo
      have hhi2 : id ≤ (preSums 0 ((imp0 :: rest).map SharedSymbolTable.MaxID)).getD i 0 +
          ((imp0 :: rest).getD i default).MaxID := by
        rw [hoff, himps] at hhi; exact hhi
      simp only [LocalSymbolTable.findByIDInImports, himps, hoff]
      rw [fbi_at imp0 rest id i hi2 hlo2 hhi2]
    · simp only [SharedSymbolTable.FindByID]
      rw [if_neg (by rw [hMidef] at hhi; omega)]
    · intro i' hi' hlo' hhi'
      have hlo2 : (preSums 0 (t.imports.map SharedSymbolTable.MaxID)).getD i 0 < id := by
        rw [hoff] at hlo; exact hlo
      have hhi2 : id ≤ (preSums 0 (t.imports.map SharedSymbolTable.MaxID)).getD i 0 +
          (t.imports.getD i default).MaxID := by
        rw [hoff] at hhi; exact hhi
      have hlo2' : (preSums 0 (t.imports.map SharedSymbolTable.MaxID)).getD i' 0 < id := by
        rw [hoff] at hlo'; exact hlo'
      have hhi2' : id ≤ (preSums 0 (t.imports.map SharedSymbolTable.MaxID)).getD i' 0 +
          (t.imports.getD i' default).MaxID := by
        rw [hoff] at hhi'; exact hhi'
      by_contra hne
      rcases Nat.lt_or_ge i' i with hlt | hge
      · have := range_dominates t.imports id i' i hi' hi hlt hhi2'
        omega
      · have hlt' : i < i' := by omega
        have := range_dominates t.imports id i i' hi hi' hlt' hhi2
        omega
  · intro h1 h2
    rw [hMdef] at h2
    simp only [LocalSymbolTable.FindByID]
    split_ifs with hc1 hc2 hc3
    · exfalso; omega
    · exfalso; omega
    · rfl
    · exfalso; omega
  · intro h
    rw [hMdef] at h
    simp only [LocalSymbolTable.FindByID]
    split_ifs with hc1 hc2 hc3
    · rfl
    · exfalso
      rcases h with h | h
      · omega
      · have hlen : (0 : Int) ≤ (t.symbols.length : Int) := by positivity
        omega
    · exfalso
      rcases h with h | h <;> omega
    · rfl

/-- Witness for C8: id 4 falls in the third import's range `(2, 5]` (the
zero-MaxID import is skipped), id 6 is the local symbol, id 7 is out of
range. -/
theorem c8_findByID_partition_witness :
    wfLST c8T ∧
    c8T.FindByID 4 = ("c2", true) ∧
    c8T.FindByID 6 = ("loc", true) ∧
    c8T.FindByID 7 = ("", false) := by
  refine ⟨⟨rfl, rfl⟩, ?_, ?_, ?_⟩
  · have h := ((c8_findByID_partition c8T ⟨rfl, rfl⟩ 4).1 2 (by decide)
      (by decide) (by decide)).1
    rw [h]
    decide
  · have h := (c8_findByID_partition c8T ⟨rfl, rfl⟩ 6).2.1 (by decide) (by decide)
    rw [h]
    decide
  · have h := (c8_findByID_partition c8T ⟨rfl, rfl⟩ 7).2.2 (by right; decide)
    rw [h]

theorem lookupA_append_single (l : List (String × Int)) (k : String) (v : Int) (s : String) :
    lookupA (l ++ [(k, v)]) s =
      match lookupA l s with
      | some x => some x
      | none => if k = s then some v else none := by
  induction l with
  | nil => rfl
  | cons p rest ih =>
    obtain ⟨k', v'⟩ := p
    by_cases h : k' = s
    · simp [lookupA, h]
    · simp [lookupA, h, ih]

theorem buildIndexGo_inv (off : Int) :
    ∀ (syms : List String) (idx : List (String × Int)) (cp : List String),
    cp.Nodup → invIdx off idx cp →
    (buildIndexGo syms off idx cp).2.Nodup ∧
    invIdx off (buildIndexGo syms off idx cp).1 (buildIndexGo syms off idx cp).2 ∧
    (∀ s, s ∈ (buildIndexGo syms off idx cp).2 ↔ s ∈ cp ∨ s ∈ syms) := by
  intro syms
  induction syms with
  | nil =>
    intro idx cp hnd hinv
    exact ⟨hnd, hinv, fun s => by simp [buildIndexGo]⟩
  | cons sym rest ih =>
    intro idx cp hnd hinv
    by_cases hmem : sym ∈ cp
    · have hlk : lookupA idx sym = some (off + (cp.indexOf sym : Nat) + 1) := by
        rw [hinv sym, if_pos hmem]
      simp only [buildIndexGo, hlk]
      obtain ⟨h1, h2, h3⟩ := ih idx cp hnd hinv
      refine ⟨h1, h2, fun s => ?_⟩
      rw [h3 s]
      constructor
      · rintro (h | h)
        · exact Or.inl h
        · exact Or.inr (List.mem_cons_of_mem _ h)
      · rintro (h | h)
        · exact Or.inl h
        · rcases List.mem_cons.mp h with rfl | h
          · exact Or.inl hmem
          · exact Or.inr h
    · have hlk : lookupA idx sym = none := by rw [hinv sym, if_neg hmem]
      simp only [buildIndexGo, hlk]
      have hnd' : (cp ++ [sym]).Nodup := by
        rw [List.nodup_append]
        refine ⟨hnd, List.nodup_singleton _, ?_⟩
        intro a ha hb
        have haeq : a = sym := by simpa using hb
        subst haeq
        exact hmem ha
      have hinv' : invIdx off (insertA idx sym (off + ((cp.length + 1 : Nat) : Int)))
          (cp ++ [sym]) := by
        intro s
        unfold insertA
        rw [lookupA_append_single]
        by_cases hs : s ∈ cp
        · rw [hinv s, if_pos hs]
          rw [if_pos (List.mem_append_left _ hs), List.indexOf_append_of_mem hs]
        · rw [hinv s, if_neg hs]
          by_cases hss : sym = s
          · subst hss
            have hval : ((cp ++ [sym]).indexOf sym : Nat) = cp.length := by
              rw [List.indexOf_append_of_not_mem hmem, List.indexOf_cons_self]
              omega
            have hmem2 : sym ∈ cp ++ [sym] := by simp
            rw [if_pos rfl, if_pos hmem2, hval]
            push_cast
            ring_nf
          · have hnot : s ∉ cp ++ [sym] := by
              intro hor
              rcases List.mem_append.mp hor with h | h
              · exact hs h
              · have hse : s = sym := by simpa using h
                exact hss hse.symm
            rw [if_neg hss, if_neg hnot]
      obtain ⟨h1, h2, h3⟩ := ih _ _ hnd' hinv'
      refine ⟨h1, h2, fun s => ?_⟩
      rw [h3 s]
      simp only [List.mem_append, List.mem_cons, List.mem_singleton]
      tauto

/-- C10: CONFIRMED. A shared symbol table built by `NewSharedSymbolTable`
from any symbol list is a bijection between ids `1..MaxID` and its
de-duplicated symbols: `FindByID` succeeds on that range and `FindByName`
inverts it; and every string of the input list is found at the 1-based
position of its first occurrence within the de-duplicated sequence. -/
theorem c10_shared_inverse (name : String) (ver : Int) (syms : List String) :
    (∀ id : Int, 1 ≤ id → id ≤ (NewSharedSymbolTable name ver syms).MaxID →
        ((NewSharedSymbolTable name ver syms).FindByID id).2 = true ∧
        (NewSharedSymbolTable name ver syms).FindByName
          ((NewSharedSymbolTable name ver syms).FindByID id).1 = (id, true)) ∧
    (∀ s, s ∈ syms →
        (NewSharedSymbolTable name ver syms).FindByName s =
          ((((NewSharedSymbolTable name ver syms).symbols.indexOf s : Nat) : Int) + 1,
            true)) := by
  obtain ⟨hnd, hinv, hiff⟩ :=
    buildIndexGo_inv 0 syms [] [] (by simp) (fun s => by simp [lookupA])
  have hsym : (NewSharedSymbolTable name ver syms).symbols
      = (buildIndexGo syms 0 [] []).2 := rfl
  have hidx : (NewSharedSymbolTable name ver syms).index
      = (buildIndexGo syms 0 [] []).1 := rfl
  have hM : (NewSharedSymbolTable name ver syms).MaxID
      = ((buildIndexGo syms 0 [] []).2.length : Int) := rfl
  constructor
  · intro id h1 h2
    rw [hM] at h2
    have hk : (id - 1).toNat < (buildIndexGo syms 0 [] []).2.length := by omega
    have hbid : (NewSharedSymbolTable name ver syms).FindByID id
        = ((buildIndexGo syms 0 [] []).2.getD (id - 1).toNat "", true) := by
      simp only [SharedSymbolTable.FindByID, hsym]
      rw [if_neg (by omega)]
    refine ⟨by rw [hbid], ?_⟩
    rw [hbid]
    have hel : (buildIndexGo syms 0 [] []).2.getD (id - 1).toNat ""
        = (buildIndexGo syms 0 [] []).2[(id - 1).toNat] := List.getD_eq_getElem _ _ hk
    have hmem : (buildIndexGo syms 0 [] []).2[(id - 1).toNat] ∈
        (buildIndexGo syms 0 [] []).2 := List.getElem_mem hk
    simp only [SharedSymbolTable.FindByName, hidx, hel]
    rw [hinv _, if_pos hmem, List.indexOf_getElem hnd]
    have harith : (0 : Int) + (((id - 1).toNat : Nat) : Int) + 1 = id := by omega
    rw [harith]
  · intro s hs
    have hmem : s ∈ (buildIndexGo syms 0 [] []).2 := (hiff s).mpr (Or.inr hs)
    simp only [SharedSymbolTable.FindByName, hidx, hsym]
    rw [hinv s, if_pos hmem]
    have harith : (0 : Int) + (((buildIndexGo syms 0 [] []).2.indexOf s : Nat) : Int) + 1
        = (((buildIndexGo syms 0 [] []).2.indexOf s : Nat) : Int) + 1 := by ring
    rw [harith]

/-- Witness for C10 on the duplicated input `["a", "b", "a"]`: id 2 maps to
`"b"` and back, and `"a"` is found at position 1. -/
theorem c10_shared_inverse_witness :
    ((NewSharedSymbolTable "t" 1 ["a", "b", "a"]).FindByID 2).2 = true ∧
    (NewSharedSymbolTable "t" 1 ["a", "b", "a"]).FindByName
      ((NewSharedSymbolTable "t" 1 ["a", "b", "a"]).FindByID 2).1 = (2, true) ∧
    (NewSharedSymbolTable "t" 1 ["a", "b", "a"]).FindByName "a" = (1, true) := by
  obtain ⟨ha, hb⟩ := c10_shared_inverse "t" 1 ["a", "b", "a"]
  refine ⟨(ha 2 (by decide) (by decide)).1, (ha 2 (by decide) (by decide)).2, ?_⟩
  rw [hb "a" (by decide)]
  decide

theorem listGetD_set_ne {α : Type} (l : List α) (i j : Nat) (a d : α) (h : i ≠ j) :
    (l.set i a).getD j d = l.getD j d := by
  simp [List.getD, List.getElem?_set_ne h]

theorem listGetD_append_left {α : Type} (l₁ l₂ : List α) (j : Nat) (d : α)
    (h : j < l₁.length) :
    (l₁ ++ l₂).getD j d = l₁.getD j d := by
  simp [List.getD, List.getElem?_append_left h]

theorem hAdd_frame (s1 : Store) (t : HTable) (s : Store) (b : HTable)
    (sym : String) (rb : Bool) (h : frameInv s1 t s b) :
    frameInv s1 t (hAdd s b sym rb).2.2.1 (hAdd s b sym rb).2.2.2 := by
  obtain ⟨h1, h2, h3, h4, h5, h6, h7, h8⟩ := h
  rcases hf : (toLocal s b).FindByName sym with ⟨id, ok⟩
  cases ok with
  | true =>
    have e0 : (hAdd s b sym rb).2.2.1 = s ∧ (hAdd s b sym rb).2.2.2 = b := by
      simp [hAdd, hf]
    unfold frameInv
    rw [e0.1, e0.2]
    exact ⟨h1, h2, h3, h4, h5, h6, h7, h8⟩
  | false =>
    cases rb with
    | false =>
      have e1 : (hAdd s b sym false).2.2.1 =
          ⟨s.arrs.set b.symbols.arr (readSlice s b.symbols ++ [sym]),
            s.maps.set b.index.mid (insertA (s.maps.getD b.index.mid []) sym
              (b.maxImportID + ((b.symbols.len + 1 : Nat) : Int)))⟩ := by
        simp [hAdd, hf, appendSlice, writeArr, writeMap, allocArr, readMap]
      have e2 : (hAdd s b sym false).2.2.2 =
          { b with symbols := ⟨b.symbols.arr, b.symbols.len + 1⟩ } := by
        simp [hAdd, hf, appendSlice, writeArr]
      unfold frameInv
      rw [e1, e2]
      refine ⟨?_, ?_, ?_, ?_, ?_, ?_, ?_, ?_⟩
      · simp only
        rw [listGetD_set_ne _ _ _ _ _ h5]
        exact h1
      · simp only
        rw [listGetD_set_ne _ _ _ _ _ h6]
        exact h2
      · simpa using h3
      · simpa using h4
      · exact h5
      · exact h6
      · simpa using h7
      · simpa using h8
    | true =>
      have e1 : (hAdd s b sym true).2.2.1 =
          ⟨s.arrs ++ [readSlice s b.symbols ++ [sym]],
            s.maps.set b.index.mid (insertA (s.maps.getD b.index.mid []) sym
              (b.maxImportID + ((b.symbols.len + 1 : Nat) : Int)))⟩ := by
        simp [hAdd, hf, appendSlice, writeArr, writeMap, allocArr, readMap]
      have e2 : (hAdd s b sym true).2.2.2 =
          { b with symbols := ⟨s.arrs.length, b.symbols.len + 1⟩ } := by
        simp [hAdd, hf, appendSlice, allocArr]
      unfold frameInv
      rw [e1, e2]
      refine ⟨?_, ?_, ?_, ?_, ?_, ?_, ?_, ?_⟩
      · simp only
        rw [listGetD_append_left _ _ _ _ h3]
        exact h1
      · simp only
        rw [listGetD_set_ne _ _ _ _ _ h6]
        exact h2
      · simp only [List.length_append, List.length_singleton]
        omega
      · simpa using h4
      · simp only
        omega
      · exact h6
      · simp only [List.length_append, List.length_singleton]
        omega
      · simpa using h8

theorem applyAdds_frame (s1 : Store) (t : HTable) :
    ∀ (adds : List (String × Bool)) (s : Store) (b : HTable),
    frameInv s1 t s b → frameInv s1 t (applyAdds s b adds).1 (applyAdds s b adds).2 := by
  intro adds
  induction adds with
  | nil => intro s b h; exact h
  | cons p rest ih =>
    intro s b h
    obtain ⟨sym, rb⟩ := p
    exact ih _ _ (hAdd_frame s1 t s b sym rb h)

/-- C9: CONFIRMED. The table returned by `Build` is an immutable snapshot:
after any sequence of subsequent `Add` calls on the builder (with arbitrary
Go-append reallocation behavior), `MaxID`, `FindByName` and `FindByID` of
the previously built table are unchanged, because `Build` copied the symbol
slice and index map into fresh cells that no later builder mutation
touches. -/
theorem c9_build_snapshot_immutable (s0 : Store) (b0 : HTable)
    (hv : validRefs s0 b0) (adds : List (String × Bool)) :
    toLocal (applyAdds (hBuild s0 b0).1 b0 adds).1 (hBuild s0 b0).2 =
      toLocal (hBuild s0 b0).1 (hBuild s0 b0).2 ∧
    (∀ sym : String,
      (toLocal (applyAdds (hBuild s0 b0).1 b0 adds).1 (hBuild s0 b0).2).FindByName sym =
        (toLocal (hBuild s0 b0).1 (hBuild s0 b0).2).FindByName sym) ∧
    (∀ id : Int,
      (toLocal (applyAdds (hBuild s0 b0).1 b0 adds).1 (hBuild s0 b0).2).FindByID id =
        (toLocal (hBuild s0 b0).1 (hBuild s0 b0).2).FindByID id) ∧
    (toLocal (applyAdds (hBuild s0 b0).1 b0 adds).1 (hBuild s0 b0).2).MaxID =
      (toLocal (hBuild s0 b0).1 (hBuild s0 b0).2).MaxID := by
  obtain ⟨hv1, hv2⟩ := hv
  have hinit : frameInv (hBuild s0 b0).1 (hBuild s0 b0).2 (hBuild s0 b0).1 b0 := by
    have e1 : (hBuild s0 b0).1 =
        ⟨s0.arrs ++ [readSlice s0 b0.symbols],
          s0.maps ++ [s0.maps.getD b0.index.mid []]⟩ := by
      simp [hBuild, allocArr, allocMap, readMap]
    have e2 : (hBuild s0 b0).2 =
        { b0 with
          symbols := ⟨s0.arrs.length, (readSlice s0 b0.symbols).length⟩
          index := ⟨s0.maps.length⟩ } := by
      simp [hBuild, allocArr, allocMap]
    unfold frameInv
    rw [e1, e2]
    refine ⟨rfl, rfl, ?_, ?_, ?_, ?_, ?_, ?_⟩
    · simp
    · simp
    · simp only
      omega
    · simp only
      omega
    · simp only [List.length_append, List.length_singleton]
      omega
    · simp only [List.length_append, List.length_singleton]
      omega
  have hframe := applyAdds_frame (hBuild s0 b0).1 (hBuild s0 b0).2 adds
    (hBuild s0 b0).1 b0 hinit
  obtain ⟨hf1, hf2, _⟩ := hframe
  have hmain : toLocal (applyAdds (hBuild s0 b0).1 b0 adds).1 (hBuild s0 b0).2 =
      toLocal (hBuild s0 b0).1 (hBuild s0 b0).2 := by
    unfold toLocal readSlice readArr readMap
    rw [hf1, hf2]
  exact ⟨hmain, fun sym => by rw [hmain], fun id => by rw [hmain], by rw [hmain]⟩

/-- Witness for C9: a store holding one builder (one symbol `"a"`, matching
index); after `Build`, adding `"b"` in place and `"c"` with reallocation
leaves every observation of the snapshot unchanged. -/
theorem c9_build_snapshot_immutable_witness :
    validRefs ⟨[["a"]], [[("a", 1)]]⟩ ⟨[], [], 0, ⟨0, 1⟩, ⟨0⟩⟩ ∧
    (toLocal
        (applyAdds (hBuild ⟨[["a"]], [[("a", 1)]]⟩ ⟨[], [], 0, ⟨0, 1⟩, ⟨0⟩⟩).1
          ⟨[], [], 0, ⟨0, 1⟩, ⟨0⟩⟩ [("b", false), ("c", true)]).1
        (hBuild ⟨[["a"]], [[("a", 1)]]⟩ ⟨[], [], 0, ⟨0, 1⟩, ⟨0⟩⟩).2).FindByName "b" =
      (toLocal (hBuild ⟨[["a"]], [[("a", 1)]]⟩ ⟨[], [], 0, ⟨0, 1⟩, ⟨0⟩⟩).1
        (hBuild ⟨[["a"]], [[("a", 1)]]⟩ ⟨[], [], 0, ⟨0, 1⟩, ⟨0⟩⟩).2).FindByName "b" ∧
    (toLocal
        (applyAdds (hBuild ⟨[["a"]], [[("a", 1)]]⟩ ⟨[], [], 0, ⟨0, 1⟩, ⟨0⟩⟩).1
          ⟨[], [], 0, ⟨0, 1⟩, ⟨0⟩⟩ [("b", false), ("c", true)]).1
        (hBuild ⟨[["a"]], [[("a", 1)]]⟩ ⟨[], [], 0, ⟨0, 1⟩, ⟨0⟩⟩).2).MaxID =
      (toLocal (hBuild ⟨[["a"]], [[("a", 1)]]⟩ ⟨[], [], 0, ⟨0, 1⟩, ⟨0⟩⟩).1
        (hBuild ⟨[["a"]], [[("a", 1)]]⟩ ⟨[], [], 0, ⟨0, 1⟩, ⟨0⟩⟩).2).MaxID := by
  refine ⟨by decide, ?_, ?_⟩
  · exact (c9_build_snapshot_immutable ⟨[["a"]], [[("a", 1)]]⟩ ⟨[], [], 0, ⟨0, 1⟩, ⟨0⟩⟩
      (by decide) [("b", false), ("c", true)]).2.1 "b"
  · exact (c9_build_snapshot_immutable ⟨[["a"]], [[("a", 1)]]⟩ ⟨[], [], 0, ⟨0, 1⟩, ⟨0⟩⟩
      (by decide) [("b", false), ("c", true)]).2.2.2

/-- Supporting fact for the sticky-error discipline: every guarded public
operation — which is all of them except `WriteValue` — is a no-op once the
sticky error slot is set, and `Finish` returns the stored error unchanged. -/
theorem sticky_error_short_circuits (w : binaryWriter) (h : w.err.isSome = true) :
    WriteNull w = .ok w ∧ (∀ t, WriteNullWithType w t = .ok w) ∧
    (∀ v, WriteBool w v = .ok w) ∧ (∀ v, WriteInt w v = .ok w) ∧
    (∀ v, WriteBigInt w v = .ok w) ∧ (∀ v, WriteFloat w v = .ok w) ∧
    (∀ d, WriteDecimal w d = .ok w) ∧ (∀ ts, WriteTimestamp w ts = .ok w) ∧
    (∀ s, WriteSymbol w s = .ok w) ∧ (∀ s, WriteString w s = .ok w) ∧
    (∀ bs, WriteClob w bs = .ok w) ∧ (∀ bs, WriteBlob w bs = .ok w) ∧
    BeginList w = .ok w ∧ EndList w = .ok w ∧ BeginSexp w = .ok w ∧
    EndSexp w = .ok w ∧ BeginStruct w = .ok w ∧ EndStruct w = .ok w ∧
    Finish w = .ok (w, w.err) := by
  obtain ⟨e, he⟩ := Option.isSome_iff_exists.mp h
  refine ⟨?_, fun t => ?_, fun v => ?_, fun v => ?_, fun v => ?_, fun v => ?_,
    fun d => ?_, fun ts => ?_, fun s => ?_, fun s => ?_, fun bs => ?_, fun bs => ?_,
    ?_, ?_, ?_, ?_, ?_, ?_, ?_⟩ <;>
    simp [WriteNull, WriteNullWithType, WriteNullWithTypeG, WriteBool, WriteBoolG,
      WriteInt, WriteIntG, WriteBigInt, WriteBigIntG, WriteFloat, WriteFloatG,
      WriteDecimal, WriteDecimalG, WriteTimestamp, WriteTimestampG, WriteSymbol,
      WriteSymbolG, WriteString, WriteStringG, WriteClob, WriteBlob, writeLobG,
      BeginList, BeginSexp, BeginStruct, BeginG, EndList, EndSexp, EndStruct, EndG,
      Finish, h, he]

/-- Witness for the supporting no-op fact at a concrete poisoned writer. -/
theorem sticky_error_short_circuits_witness :
    c4w.err.isSome = true ∧ WriteBool c4w true = .ok c4w ∧
      Finish c4w = .ok (c4w, c4w.err) := by
  refine ⟨by decide, (sticky_error_short_circuits c4w (by decide)).2.2.1 true,
    (sticky_error_short_circuits c4w (by decide)).2.2.2.2.2.2.2.2.2.2.2.2.2.2.2.2.2.2⟩

end IonGo
